import Mathlib

/-!
Verification of the Chinese-Postman route processor (`routeProcessor.ts`).

The TypeScript source is shallowly embedded below.  JavaScript `number`
is embedded as an arbitrary `LinearOrderedField` (instantiated at `ℚ`
for executable developments and at `ℝ` where the trigonometric
geospatial primitives are involved); JS `Map`/`Set` are embedded as
association lists that preserve the insertion-order iteration semantics
of the originals; JS `Infinity` is embedded as `⊤ : WithTop α`;
imperative loops are embedded as structurally recursive functions with
an explicit fuel argument chosen at the call site to dominate the
loop's termination measure.
-/

/-! ## Association-list model of JS `Map` and `Set` -/

/-- JS `Map.get`: first binding of the key, if any. -/
def alistGet {κ β : Type} [DecidableEq κ] (l : List (κ × β)) (k : κ) : Option β :=
  match l with
  | [] => none
  | (k', v) :: t => if k' = k then some v else alistGet t k

/-- JS `Map.set`: update the first binding in place, else append.
Preserves insertion order like a JS `Map`. -/
def alistSet {κ β : Type} [DecidableEq κ] (l : List (κ × β)) (k : κ) (v : β) :
    List (κ × β) :=
  match l with
  | [] => [(k, v)]
  | (k', v') :: t => if k' = k then (k, v) :: t else (k', v') :: alistSet t k v

/-- The `if (!m.has(k)) m.set(k, []); m.get(k)!.push(e)` idiom. -/
def alistPush {κ β : Type} [DecidableEq κ] (l : List (κ × List β)) (k : κ) (e : β) :
    List (κ × List β) :=
  match l with
  | [] => [(k, [e])]
  | (k', es) :: t =>
    if k' = k then (k, es ++ [e]) :: t else (k', es) :: alistPush t k e

/-- JS `Set.add`: insert if absent, preserving insertion order. -/
def jsSetAdd {κ : Type} [DecidableEq κ] (l : List κ) (k : κ) : List κ :=
  if k ∈ l then l else l ++ [k]

/-- JS `Set.delete`: remove the element (first occurrence). -/
def jsSetDelete {κ : Type} [DecidableEq κ] (l : List κ) (k : κ) : List κ :=
  l.erase k

/-! ## Data model (`routeProcessor.ts` interfaces) -/

/-- `OSMNode` — vertex with id and coordinates. -/
structure OSMNode (α : Type) where
  id : ℕ
  lat : α
  lon : α
deriving DecidableEq, Repr

/-- `OSMWay` — segment: ordered node ids plus string tags. -/
structure OSMWay where
  id : ℕ
  nodes : List ℕ
  tags : List (String × String)
deriving DecidableEq, Repr

/-- `way.tags.x || ''` — tag lookup defaulting to the empty string. -/
def tagGet (w : OSMWay) (k : String) : String :=
  (alistGet w.tags k).getD ""

/-- `GraphEdge` — per-arc payload (`from` and `to` are Lean keywords; the
fields are renamed `src` and `dst`). -/
structure GraphEdge (α : Type) where
  src : ℕ
  dst : ℕ
  length : α
  bearing : α
  wayId : ℕ
  highway : String
  name : String
deriving DecidableEq, Repr

/-- An adjacency-list entry `{ to, key, data }` (`to` renamed `dst`). -/
structure GraphEntry (α : Type) where
  dst : ℕ
  key : ℕ
  data : GraphEdge α
deriving DecidableEq, Repr

/-- `Graph` — adjacency map, vertex map, arc count. -/
structure Graph (α : Type) where
  adjacency : List (ℕ × List (GraphEntry α))
  nodes : List (ℕ × OSMNode α)
  edgeCount : ℕ
deriving DecidableEq, Repr

/-- `TurnPenaltyConfig` — four penalty knobs. -/
structure TurnPenaltyConfig (α : Type) where
  straight : α
  rightTurn : α
  leftTurn : α
  uTurn : α
deriving DecidableEq, Repr

/-! ## `calculateTurnScore` (lines 1420–1450)

The two `while` normalisation loops are embedded with explicit fuel;
`normFuel` dominates the number of iterations each loop can take. -/

/-- `while (turnAngle > 180) turnAngle -= 360` with fuel. -/
def normLoopDown {α : Type} [LinearOrderedField α] : ℕ → α → α
  | 0, x => x
  | n + 1, x => if x > 180 then normLoopDown n (x - 360) else x

/-- `while (turnAngle < -180) turnAngle += 360` with fuel. -/
def normLoopUp {α : Type} [LinearOrderedField α] : ℕ → α → α
  | 0, x => x
  | n + 1, x => if x < -180 then normLoopUp n (x + 360) else x

/-- Fuel sufficient for either normalisation loop on input `x`. -/
def normFuel {α : Type} [LinearOrderedField α] [FloorRing α] (x : α) : ℕ :=
  (⌈|x| / 360⌉).toNat + 1

/-- Normalise `x` into `[-180, 180]` exactly as the two source loops do. -/
def normalizeAngle {α : Type} [LinearOrderedField α] [FloorRing α] (x : α) : α :=
  let y := normLoopDown (normFuel x) x
  normLoopUp (normFuel y) y

/-- `calculateTurnScore` — turn-angle scoring with configurable penalties. -/
def calculateTurnScore {α : Type} [LinearOrderedField α] [FloorRing α]
    (incomingBearing outgoingBearing : α) (penalties : TurnPenaltyConfig α) : α :=
  let turnAngle := normalizeAngle (outgoingBearing - incomingBearing)
  let absTurn := |turnAngle|
  if absTurn > 150 then
    500 + (absTurn - 150) + penalties.uTurn
  else if absTurn ≤ 20 then
    absTurn + penalties.straight
  else if turnAngle > 0 then
    20 + turnAngle + penalties.rightTurn
  else
    160 + absTurn + penalties.leftTurn

/-! ## `hierholzerWithTurnPreference` (lines 1452–1506)

The `while (stack.length > 0)` loop is embedded as `hhLoop` with fuel;
`2 * (number of remaining arcs) + stack length` strictly decreases at
every iteration, so the fuel passed by the wrapper suffices. -/

/-- One stack frame `{ node, incomingBearing }` (`null` ↦ `none`). -/
structure HHFrame (α : Type) where
  node : ℕ
  incomingBearing : Option α
deriving DecidableEq, Repr

/-- The loop state: working copy of the adjacency, stack, circuit. -/
structure HHState (α : Type) where
  rem : List (ℕ × List (GraphEntry α))
  stack : List (HHFrame α)
  circuit : List ℕ
deriving DecidableEq, Repr

/-- `edges.findIndex(e => e.key === selectedEdge.key)` followed by
`splice(idx, 1)`: drop the first entry carrying the key (no change when
the key is absent, i.e. when `findIndex` returns `-1`). -/
def removeFirstByKey {α : Type} (k : ℕ) : List (GraphEntry α) → List (GraphEntry α)
  | [] => []
  | e :: t => if e.key = k then t else e :: removeFirstByKey k t

/-- JS stable `sort((a, b) => a.score - b.score)` followed by `[0]`:
the earliest entry of minimal score.  Embedded as a left fold keeping
the first strict minimum. -/
def firstMinBy {α : Type} [LinearOrder α] {β : Type} (score : β → α)
    (e0 : β) (es : List β) : β :=
  es.foldl (fun best e => if score e < score best then e else best) e0

/-- The edge choice of the loop body: score-based only when an incoming
bearing is known and more than one arc remains (`edges.length > 1`),
otherwise `edges[0]`. -/
def hhSelect {α : Type} [LinearOrderedField α] [FloorRing α]
    (incomingBearing : Option α) (penalties : TurnPenaltyConfig α)
    (e0 : GraphEntry α) (es : List (GraphEntry α)) : GraphEntry α :=
  match incomingBearing, es with
  | some ib, _ :: _ =>
    firstMinBy (fun e => calculateTurnScore ib e.data.bearing penalties) e0 es
  | _, _ => e0

/-- The `while (stack.length > 0)` loop of
`hierholzerWithTurnPreference`, with fuel. -/
def hhLoop {α : Type} [LinearOrderedField α] [FloorRing α]
    (penalties : TurnPenaltyConfig α) : ℕ → HHState α → HHState α
  | 0, st => st
  | fuel + 1, st =>
    match st.stack with
    | [] => st
    | frame :: rest =>
      match (alistGet st.rem frame.node).getD [] with
      | [] =>
        hhLoop penalties fuel ⟨st.rem, rest, st.circuit ++ [frame.node]⟩
      | e0 :: es =>
        let selectedEdge := hhSelect frame.incomingBearing penalties e0 es
        let rem' := alistSet st.rem frame.node
          (removeFirstByKey selectedEdge.key (e0 :: es))
        hhLoop penalties fuel
          ⟨rem', ⟨selectedEdge.dst, some selectedEdge.data.bearing⟩ :: frame :: rest,
            st.circuit⟩

/-- Number of arcs held in a working adjacency list. -/
def remArcCount {α : Type} (rem : List (ℕ × List (GraphEntry α))) : ℕ :=
  (rem.map (fun p => p.2.length)).sum

/-- Total number of arcs of a graph (sum of out-lists). -/
def graphArcCount {α : Type} (graph : Graph α) : ℕ :=
  remArcCount graph.adjacency

/-- `hierholzerWithTurnPreference` — turn-biased Hierholzer circuit. -/
def hierholzerWithTurnPreference {α : Type} [LinearOrderedField α] [FloorRing α]
    (graph : Graph α) (startNode : ℕ) (penalties : TurnPenaltyConfig α) : List ℕ :=
  let remainingEdges :=
    graph.adjacency.foldl (fun m p => alistSet m p.1 p.2) []
  let final := hhLoop penalties (2 * remArcCount remainingEdges + 1)
    ⟨remainingEdges, [⟨startNode, none⟩], []⟩
  final.circuit.reverse

/-! ## Degree balancer (`getOddDegreeNodes`, `dijkstra`,
`minimumWeightMatching`, `createMultigraph`, lines 651–794)

`Infinity` is embedded as `⊤ : WithTop α`.  The JS expression
`distances.get(node) || Infinity` yields `Infinity` not only when the
key is absent but also when the stored distance is `0`, because `0` is
falsy in JS; `jsOrInfinity` reproduces this. -/

/-- `getOddDegreeNodes` — vertices whose out-list length is odd. -/
def getOddDegreeNodes {α : Type} (graph : Graph α) : List ℕ :=
  let degrees := graph.adjacency.foldl
    (fun d p => alistSet d p.1 ((alistGet d p.1).getD 0 + p.2.length)) []
  let degrees := graph.nodes.foldl
    (fun d p => if (alistGet d p.1).isSome then d else alistSet d p.1 0) degrees
  (degrees.filter (fun p => p.2 % 2 = 1)).map Prod.fst

/-- `x || Infinity` on `number | undefined`: `undefined` and the falsy
`0` both give `Infinity`. -/
def jsOrInfinity {α : Type} [LinearOrderedField α] [DecidableEq α]
    (x : Option (WithTop α)) : WithTop α :=
  match x with
  | none => ⊤
  | some d => if d = 0 then ⊤ else d

/-- The inner `for (const node of unvisited)` minimum-selection loop of
`dijkstra` (`current = -1` ↦ `none`). -/
def dijkstraSelect {α : Type} [LinearOrderedField α]
    (distances : List (ℕ × WithTop α)) (unvisited : List ℕ) :
    Option ℕ × WithTop α :=
  unvisited.foldl
    (fun acc node =>
      let dist := jsOrInfinity (alistGet distances node)
      if dist < acc.2 then (some node, dist) else acc)
    (none, ⊤)

/-- The relaxation loop `for (const edge of edges)` of `dijkstra`. -/
def dijkstraRelax {α : Type} [LinearOrderedField α]
    (current : ℕ) (unvisited : List ℕ) (edges : List (GraphEntry α)) :
    List (ℕ × WithTop α) × List (ℕ × ℕ) → List (ℕ × WithTop α) × List (ℕ × ℕ)
  | (distances, previous) =>
    edges.foldl
      (fun (acc : List (ℕ × WithTop α) × List (ℕ × ℕ)) edge =>
        if edge.dst ∈ unvisited then
          let newDist := jsOrInfinity (alistGet acc.1 current) +
            (edge.data.length : WithTop α)
          if newDist < jsOrInfinity (alistGet acc.1 edge.dst) then
            (alistSet acc.1 edge.dst newDist, alistSet acc.2 edge.dst current)
          else acc
        else acc)
      (distances, previous)

/-- The `while (unvisited.size > 0)` loop of `dijkstra`, with fuel (one
vertex is deleted per iteration, so `|unvisited|` iterations suffice). -/
def dijkstraLoop {α : Type} [LinearOrderedField α]
    (adjacency : List (ℕ × List (GraphEntry α))) (endNode : ℕ) :
    ℕ → List (ℕ × WithTop α) × List (ℕ × ℕ) × List ℕ →
    List (ℕ × WithTop α) × List (ℕ × ℕ) × List ℕ
  | 0, st => st
  | fuel + 1, (distances, previous, unvisited) =>
    if unvisited = [] then (distances, previous, unvisited)
    else
      match dijkstraSelect distances unvisited with
      | (none, _) => (distances, previous, unvisited)
      | (some current, _) =>
        if current = endNode then (distances, previous, unvisited)
        else
          let unvisited' := jsSetDelete unvisited current
          let edges := (alistGet adjacency current).getD []
          let (distances', previous') :=
            dijkstraRelax current unvisited' edges (distances, previous)
          dijkstraLoop adjacency endNode fuel (distances', previous', unvisited')

/-- The `while (previous.has(current))` path-reconstruction loop, with
fuel (`previous` is finite, and acyclic in any run of the algorithm). -/
def dijkstraPathBuild (previous : List (ℕ × ℕ)) :
    ℕ → ℕ → List ℕ → List ℕ
  | 0, _, path => path
  | fuel + 1, current, path =>
    match alistGet previous current with
    | some p => dijkstraPathBuild previous fuel p (current :: path)
    | none => path

/-- Result record `{ path, distance }` of `dijkstra`. -/
structure DijkstraResult (α : Type) where
  path : List ℕ
  distance : WithTop α
deriving DecidableEq, Repr

/-- `dijkstra` — single-pair shortest path (lines 669–722). -/
def dijkstra {α : Type} [LinearOrderedField α]
    (graph : Graph α) (start endNode : ℕ) : DijkstraResult α :=
  let distances : List (ℕ × WithTop α) :=
    graph.nodes.foldl (fun d p => alistSet d p.1 ⊤) []
  let distances := alistSet distances start 0
  let unvisited := graph.nodes.foldl (fun s p => jsSetAdd s p.1) []
  let (distances', previous', _) :=
    dijkstraLoop graph.adjacency endNode unvisited.length
      (distances, [], unvisited)
  let path := start :: dijkstraPathBuild previous' (previous'.length + 1) endNode []
  ⟨path, jsOrInfinity (alistGet distances' endNode)⟩

/-- The inner `for (let j = i + 1; ...)` loop of
`minimumWeightMatching` (`bestJ = -1` ↦ `none`; the best partner is
tracked by node id, which is all the source uses `bestJ` for). -/
def mwmBestPartner {α : Type} [LinearOrderedField α]
    (graph : Graph α) (ni : ℕ) (matched : List ℕ) (rest : List ℕ) :
    Option ℕ × WithTop α :=
  rest.foldl
    (fun acc nj =>
      if nj ∈ matched then acc
      else
        let r := dijkstra graph ni nj
        if r.distance < acc.2 then (some nj, r.distance) else acc)
    (none, ⊤)

/-- The outer loop of `minimumWeightMatching`. -/
def mwmLoop {α : Type} [LinearOrderedField α] (graph : Graph α) :
    List ℕ → List ℕ → List (ℕ × ℕ) → List (ℕ × ℕ)
  | [], _, matching => matching
  | ni :: rest, matched, matching =>
    if ni ∈ matched then mwmLoop graph rest matched matching
    else
      match mwmBestPartner graph ni matched rest with
      | (none, _) => mwmLoop graph rest matched matching
      | (some nj, _) =>
        mwmLoop graph rest (jsSetAdd (jsSetAdd matched ni) nj)
          (matching ++ [(ni, nj)])

/-- `minimumWeightMatching` — greedy pairing of odd-degree vertices. -/
def minimumWeightMatching {α : Type} [LinearOrderedField α]
    (graph : Graph α) (oddNodes : List ℕ) : List (ℕ × ℕ) :=
  mwmLoop graph oddNodes [] []

/-- Consecutive pairs of a list (`path[i], path[i+1]`). -/
def consecPairs {β : Type} (l : List β) : List (β × β) :=
  l.zip l.tail

/-- `createMultigraph` — copy the graph, renumbering arc keys, then
append one duplicate arc per arc of each matched pair's shortest path. -/
def createMultigraph {α : Type} [LinearOrderedField α]
    (graph : Graph α) (matching : List (ℕ × ℕ)) : Graph α :=
  let copyStep := fun (st : List (ℕ × List (GraphEntry α)) × ℕ)
      (p : ℕ × List (GraphEntry α)) =>
    let (copied, k) := p.2.foldl
      (fun (acc : List (GraphEntry α) × ℕ) e =>
        (acc.1 ++ [{ e with key := acc.2 }], acc.2 + 1)) ([], st.2)
    (alistSet st.1 p.1 copied, k)
  let (multigraph, edgeKey) := graph.adjacency.foldl copyStep ([], 0)
  let addPair := fun (st : List (ℕ × List (GraphEntry α)) × ℕ) (uv : ℕ × ℕ) =>
    let r := dijkstra graph uv.1 uv.2
    (consecPairs r.path).foldl
      (fun (acc : List (ℕ × List (GraphEntry α)) × ℕ) (st2 : ℕ × ℕ) =>
        let edges := (alistGet graph.adjacency st2.1).getD []
        match edges.find? (fun e => e.dst = st2.2) with
        | some edge =>
          (alistPush acc.1 st2.1 ⟨st2.2, acc.2, edge.data⟩, acc.2 + 1)
        | none => acc)
      st
  let (multigraph, edgeKey) := matching.foldl addPair (multigraph, edgeKey)
  ⟨multigraph, graph.nodes, edgeKey⟩

/-! ## Geospatial primitives (lines 1104–1131)

`Math.sin`/`cos`/`sqrt`/`atan2` are embedded over `ℝ`; `%` on the
positive operands used by the source is the floor-remainder `jsMod`. -/

/-- JS `Math.atan2(y, x)`. -/
noncomputable def mathAtan2 (y x : ℝ) : ℝ :=
  if 0 < x then Real.arctan (y / x)
  else if x < 0 then
    (if 0 ≤ y then Real.arctan (y / x) + Real.pi else Real.arctan (y / x) - Real.pi)
  else
    (if 0 < y then Real.pi / 2 else if y < 0 then -(Real.pi / 2) else 0)

/-- JS `a % m` for the nonnegative dividends the source feeds it
(truncating and flooring remainders agree there). -/
noncomputable def jsMod (a m : ℝ) : ℝ :=
  a - m * ⌊a / m⌋

/-- `haversineDistance` — great-circle distance, Earth radius
6 371 000 m. -/
noncomputable def haversineDistance (lat1 lon1 lat2 lon2 : ℝ) : ℝ :=
  let R : ℝ := 6371000
  let phi1 := lat1 * Real.pi / 180
  let phi2 := lat2 * Real.pi / 180
  let deltaPhi := (lat2 - lat1) * Real.pi / 180
  let deltaLambda := (lon2 - lon1) * Real.pi / 180
  let a := Real.sin (deltaPhi / 2) ^ 2 +
    Real.cos phi1 * Real.cos phi2 * Real.sin (deltaLambda / 2) ^ 2
  let c := 2 * mathAtan2 (Real.sqrt a) (Real.sqrt (1 - a))
  R * c

/-- `calculateBearing` — forward azimuth normalised to `[0, 360)`.
The source calls `Math.atan2(x, y)` with its own `x` in the JS `y`
slot. -/
noncomputable def calculateBearing (lat1 lon1 lat2 lon2 : ℝ) : ℝ :=
  let phi1 := lat1 * Real.pi / 180
  let phi2 := lat2 * Real.pi / 180
  let deltaLambda := (lon2 - lon1) * Real.pi / 180
  let x := Real.sin deltaLambda * Real.cos phi2
  let y := Real.cos phi1 * Real.sin phi2 -
    Real.sin phi1 * Real.cos phi2 * Real.cos deltaLambda
  let bearing := mathAtan2 x y * (180 / Real.pi)
  jsMod (bearing + 360) 360

/-! ## `filterWays` (lines 1173–1205) -/

/-- Highway classes eligible for routing (`INCLUDE_HIGHWAYS`). -/
def INCLUDE_HIGHWAYS : List String :=
  ["residential", "unclassified", "service", "tertiary",
   "secondary", "primary", "living_street"]

/-- `EXCLUDE_SERVICE`. -/
def EXCLUDE_SERVICE : List String := ["parking_aisle", "driveway"]

/-- `EXCLUDE_ACCESS`. -/
def EXCLUDE_ACCESS : List String := ["private", "no"]

/-- `EXCLUDE_HIGHWAYS`. -/
def EXCLUDE_HIGHWAYS : List String :=
  ["footway", "cycleway", "steps", "path", "pedestrian", "track"]

/-- Result record `{ included, excluded }` of `filterWays`. -/
structure FilterResult where
  included : List OSMWay
  excluded : List OSMWay
deriving DecidableEq, Repr

/-- The per-way branch of `filterWays`: `true` means included. -/
def wayIncluded (way : OSMWay) : Bool :=
  let highway := tagGet way "highway"
  if ¬ (highway ∈ INCLUDE_HIGHWAYS) ∧
      (highway ∈ EXCLUDE_HIGHWAYS ∨ highway = "") then false
  else if tagGet way "service" ∈ EXCLUDE_SERVICE then false
  else if tagGet way "access" ∈ EXCLUDE_ACCESS then false
  else true

/-- `filterWays` — split ways into included and excluded, in order. -/
def filterWays (ways : List OSMWay) : FilterResult :=
  ways.foldl
    (fun acc way =>
      if wayIncluded way then { acc with included := acc.included ++ [way] }
      else { acc with excluded := acc.excluded ++ [way] })
    ⟨[], []⟩

/-! ## `buildGraph` (lines 1213–1269) -/

/-- Accumulator of the `buildGraph` loops: adjacency, vertex map,
running `edgeKey`. -/
structure BGState where
  adjacency : List (ℕ × List (GraphEntry ℝ))
  nodesAcc : List (ℕ × OSMNode ℝ)
  edgeKey : ℕ

/-- The body of the inner `for (let i = 0; ...)` loop of `buildGraph`,
for one consecutive node pair `(u, v)` of `way`. -/
noncomputable def buildPairStep (nodes : List (ℕ × OSMNode ℝ)) (way : OSMWay)
    (ignoreOneways : Bool) (st : BGState) (uv : ℕ × ℕ) : BGState :=
  let isOneway := tagGet way "oneway" = "yes"
  match alistGet nodes uv.1, alistGet nodes uv.2 with
  | some nodeU, some nodeV =>
    let nodesAcc := alistSet (alistSet st.nodesAcc uv.1 nodeU) uv.2 nodeV
    let length := haversineDistance nodeU.lat nodeU.lon nodeV.lat nodeV.lon
    let bearing := calculateBearing nodeU.lat nodeU.lon nodeV.lat nodeV.lon
    let hw := tagGet way "highway"
    let nm := tagGet way "name"
    let edgeData : GraphEdge ℝ :=
      ⟨uv.1, uv.2, length, bearing, way.id,
        if hw = "" then "unknown" else hw,
        if nm = "" then "unnamed" else nm⟩
    let adjacency := alistPush st.adjacency uv.1 ⟨uv.2, st.edgeKey, edgeData⟩
    if ignoreOneways ∨ ¬ isOneway then
      let reverseData : GraphEdge ℝ :=
        { edgeData with src := uv.2, dst := uv.1, bearing := jsMod (bearing + 180) 360 }
      ⟨alistPush adjacency uv.2 ⟨uv.1, st.edgeKey + 1, reverseData⟩,
        nodesAcc, st.edgeKey + 2⟩
    else
      ⟨adjacency, nodesAcc, st.edgeKey + 1⟩
  | _, _ => st

/-- `buildGraph` — directed multigraph from the filtered ways. -/
noncomputable def buildGraph (nodes : List (ℕ × OSMNode ℝ)) (ways : List OSMWay)
    (ignoreOneways : Bool) : Graph ℝ :=
  let final := ways.foldl
    (fun st way => (consecPairs way.nodes).foldl
      (buildPairStep nodes way ignoreOneways) st)
    ⟨[], [], 0⟩
  ⟨final.adjacency, final.nodesAcc, final.edgeKey⟩

/-! ## `findLargestSCC` (lines 1271–1353)

The two recursive depth-first searches are embedded as worklist
recursions with fuel; checking `visited` when an element is dequeued is
equivalent to the source's check before each recursive call because
`visited` only grows.  A call either consumes a worklist element or
opens a visit, so `2·|nodes| + |arcs| + 2` nested calls suffice. -/

/-- First DFS pass (`dfs1`): records vertices in finish order. -/
def dfs1Run {α : Type} (adjacency : List (ℕ × List (GraphEntry α))) :
    ℕ → List ℕ → List ℕ × List ℕ → List ℕ × List ℕ
  | 0, _, st => st
  | _ + 1, [], st => st
  | fuel + 1, node :: rest, st =>
    if node ∈ st.1 then dfs1Run adjacency fuel rest st
    else
      let targets := ((alistGet adjacency node).getD []).map (fun e => e.dst)
      let st2 := dfs1Run adjacency fuel targets (jsSetAdd st.1 node, st.2)
      dfs1Run adjacency fuel rest (st2.1, st2.2 ++ [node])

/-- Second DFS pass (`dfs2`) over the reverse graph: collects one
strongly connected component in visit order. -/
def dfs2Run (revAdj : List (ℕ × List ℕ)) :
    ℕ → List ℕ → List ℕ × List ℕ → List ℕ × List ℕ
  | 0, _, st => st
  | _ + 1, [], st => st
  | fuel + 1, node :: rest, st =>
    if node ∈ st.1 then dfs2Run revAdj fuel rest st
    else
      let st2 := dfs2Run revAdj fuel ((alistGet revAdj node).getD [])
        (jsSetAdd st.1 node, st.2 ++ [node])
      dfs2Run revAdj fuel rest st2

/-- The `while (finished.length > 0)` component-collection loop. -/
def sccCollect (revAdj : List (ℕ × List ℕ)) (fuel : ℕ) :
    List ℕ → List ℕ → List (List ℕ) → List (List ℕ)
  | [], _, comps => comps
  | node :: rest, visited, comps =>
    if node ∈ visited then sccCollect revAdj fuel rest visited comps
    else
      let st2 := dfs2Run revAdj fuel [node] (visited, [])
      sccCollect revAdj fuel rest st2.1 (comps ++ [st2.2])

/-- Result record `{ subgraph, componentCount }`. -/
structure SCCResult (α : Type) where
  subgraph : Graph α
  componentCount : ℕ

/-- `findLargestSCC` — Kosaraju two-pass SCC, keeping the largest
component's induced subgraph. -/
def findLargestSCC {α : Type} (graph : Graph α) : SCCResult α :=
  let nodes := graph.nodes.map Prod.fst
  let dfsFuel := 2 * graph.nodes.length + remArcCount graph.adjacency + 2
  let finished := (dfs1Run graph.adjacency dfsFuel nodes ([], [])).2
  let revAdj := graph.adjacency.foldl
    (fun racc p => p.2.foldl (fun r e => alistPush r e.dst p.1) racc) []
  let components := sccCollect revAdj dfsFuel finished.reverse [] []
  let largestComponent := components.foldl
    (fun a b => if a.length > b.length then a else b) []
  let built := largestComponent.foldl
    (fun (acc : List (ℕ × List (GraphEntry α)) × List (ℕ × OSMNode α) × ℕ)
        nodeId =>
      let subNodes := match alistGet graph.nodes nodeId with
        | some n => alistSet acc.2.1 nodeId n
        | none => acc.2.1
      let edges := (alistGet graph.adjacency nodeId).getD []
      let filteredEdges := edges.filter (fun e => e.dst ∈ largestComponent)
      if filteredEdges.length > 0 then
        (alistSet acc.1 nodeId filteredEdges, subNodes,
          acc.2.2 + filteredEdges.length)
      else (acc.1, subNodes, acc.2.2))
    ([], [], 0)
  ⟨⟨built.1, built.2.1, built.2.2⟩, components.length⟩

/-! ## Start-vertex selection (lines 1355–1397) -/

/-- `findClosestNode` — vertex nearest to a target coordinate.
`minDist = Infinity` is `⊤ : WithTop ℝ`; on an empty vertex map the
source's `Array.from(keys())[0]` is `undefined`, embedded as a default
id `0` (the pipeline only calls this on a nonempty reduced graph). -/
noncomputable def findClosestNode (graph : Graph ℝ) (targetLat targetLon : ℝ) : ℕ :=
  let first := ((graph.nodes.map Prod.fst).head?).getD 0
  let r := graph.nodes.foldl
    (fun (acc : ℕ × WithTop ℝ) p =>
      let dist := haversineDistance targetLat targetLon p.2.lat p.2.lon
      if (dist : WithTop ℝ) < acc.2 then (p.1, (dist : WithTop ℝ)) else acc)
    (first, ⊤)
  r.1

/-- `findCentroidNode` — vertex nearest to the coordinate centroid. -/
noncomputable def findCentroidNode (graph : Graph ℝ) : ℕ :=
  let sums := graph.nodes.foldl
    (fun (acc : ℝ × ℝ × ℝ) p => (acc.1 + p.2.lat, acc.2.1 + p.2.lon, acc.2.2 + 1))
    (0, 0, 0)
  let centroidLat := sums.1 / sums.2.2
  let centroidLon := sums.2.1 / sums.2.2
  findClosestNode graph centroidLat centroidLon

/-! ## `generateGPX` (lines 1508–1541)

The ambient wall clock read by `new Date()` is passed explicitly as a
pair of already-rendered strings, and JS number-to-string conversion is
passed as an explicit function, both being environment-supplied
effects. -/

/-- The two renderings of the invocation's wall-clock time that the
source interpolates (`toISOString`, `toLocaleString`). -/
structure Clock where
  iso : String
  locale : String
deriving DecidableEq, Repr

/-- `generateGPX` — serialize the circuit as a GPX 1.1 track. -/
def generateGPX {α : Type} (circuit : List ℕ) (nodes : List (ℕ × OSMNode α))
    (filename : String) (clock : Clock) (numToString : α → String) : String :=
  let points := circuit.filterMap (fun nodeId => alistGet nodes nodeId)
  let header :=
    "<?xml version=\"1.0\" encoding=\"UTF-8\"?>\n" ++
    "<gpx xmlns=\"http://www.topografix.com/GPX/1/1\" version=\"1.1\" creator=\"Trash Collection Route Planner\">\n" ++
    "  <metadata>\n    <name>" ++ filename ++ "</name>\n" ++
    "    <desc>Trash collection route generated using Chinese Postman Problem algorithm</desc>\n" ++
    "    <time>" ++ clock.iso ++ "</time>\n  </metadata>\n" ++
    "  <trk>\n    <name>Trash Collection Route</name>\n" ++
    "    <desc>Generated on " ++ clock.locale ++ "</desc>\n    <trkseg>\n"
  let body := points.foldl
    (fun acc p =>
      acc ++ "      <trkpt lat=\"" ++ numToString p.lat ++ "\" lon=\"" ++
        numToString p.lon ++ "\"></trkpt>\n")
    header
  body ++ "    </trkseg>\n  </trk>\n</gpx>"

/-! ## `calculateRouteStats` (lines 1543–1609) -/

/-- `RouteStats` — result statistics record. -/
structure RouteStats (α : Type) where
  totalDistanceKm : α
  totalTraversals : ℕ
  driveTimeMin : α
  nodeCount : ℕ
  edgeCount : ℕ
  connectedComponents : ℕ
  includedWays : ℕ
  excludedWays : ℕ
  uTurnCount : ℕ
  rightTurnCount : ℕ
  leftTurnCount : ℕ
deriving DecidableEq

/-- Mutable locals of the stats loop (`null` ↦ `none`). -/
structure StatsAcc (α : Type) where
  totalDistance : α
  traversals : ℕ
  uTurnCount : ℕ
  rightTurnCount : ℕ
  leftTurnCount : ℕ
  prevBearing : Option α
  lastCountedBearing : Option α

/-- One hop of the stats loop, for the consecutive circuit pair
`(u, v)`.  The `!==` comparisons are true whenever the compared
`prevBearing` is `null`. -/
def statsStep {α : Type} [LinearOrderedField α] [FloorRing α]
    (adjacency : List (ℕ × List (GraphEntry α)))
    (st : StatsAcc α) (uv : ℕ × ℕ) : StatsAcc α :=
  let edges := (alistGet adjacency uv.1).getD []
  match edges.find? (fun e => e.dst = uv.2) with
  | none => st
  | some edge =>
    let st := { st with
      totalDistance := st.totalDistance + edge.data.length,
      traversals := st.traversals + 1 }
    let st :=
      match st.lastCountedBearing with
      | some lc =>
        if some edge.data.bearing ≠ st.prevBearing then
          let turnAngle := normalizeAngle (edge.data.bearing - lc)
          let absTurn := |turnAngle|
          if absTurn > 150 then { st with uTurnCount := st.uTurnCount + 1 }
          else if turnAngle > 20 then
            { st with rightTurnCount := st.rightTurnCount + 1 }
          else if turnAngle < -20 then
            { st with leftTurnCount := st.leftTurnCount + 1 }
          else st
        else st
      | none => st
    let st :=
      if st.prevBearing ≠ none ∧ some edge.data.bearing ≠ st.prevBearing then
        { st with lastCountedBearing := st.prevBearing }
      else st
    { st with prevBearing := some edge.data.bearing }

/-- `calculateRouteStats` — walk the circuit pairwise, accumulating
distance, traversals and turn counts, then derive km and minutes. -/
def calculateRouteStats {α : Type} [LinearOrderedField α] [FloorRing α]
    (circuit : List ℕ) (graph : Graph α)
    (includedWays excludedWays componentCount : ℕ) : RouteStats α :=
  let acc := (consecPairs circuit).foldl (statsStep graph.adjacency)
    ⟨0, 0, 0, 0, 0, none, none⟩
  let totalDistanceKm := acc.totalDistance / 1000
  let driveTimeMin := totalDistanceKm / 15 * 60
  ⟨totalDistanceKm, acc.traversals, driveTimeMin, graph.nodes.length,
    graph.edgeCount, componentCount, includedWays, excludedWays,
    acc.uTurnCount, acc.rightTurnCount, acc.leftTurnCount⟩

/-! ## `processRoute` (lines 1616–1741)

The DOM parsing of `parseOSMFile` and the synchronous progress-log
callback are external collaborators (spec §1, §5); `processRoute` is
embedded from its typed post-parse input, the wall clock is the
explicit `Clock` argument, and `throw` is `Except.error`. -/

/-- `StartPoint` — caller-supplied coordinate. -/
structure StartPoint where
  lat : ℝ
  lon : ℝ

/-- Route bounds; the `Math.min`/`Math.max` folds start from
`Infinity`/`-Infinity`. -/
structure Bounds where
  minLat : WithTop ℝ
  maxLat : WithBot ℝ
  minLon : WithTop ℝ
  maxLon : WithBot ℝ

/-- `RouteResult` — success payload of `processRoute` (the log array is
the callback transcript, an external effect, and is not modelled). -/
structure RouteResult where
  gpxContent : String
  stats : RouteStats ℝ
  coordinates : List (ℝ × ℝ)
  bounds : Bounds

/-- Default penalties substituted for an absent `penalties` argument. -/
def defaultPenalties : TurnPenaltyConfig ℝ := ⟨0, 10, 50, 500⟩

/-- The successful tail of `processRoute`, from the reduced graph on:
start-vertex choice, circuit, GPX, statistics, coordinates, bounds. -/
noncomputable def routeResultOf (subgraph : Graph ℝ) (componentCount : ℕ)
    (includedWays excludedWays : ℕ) (filename : String)
    (customStartPoint : Option StartPoint)
    (activePenalties : TurnPenaltyConfig ℝ) (clock : Clock)
    (numToString : ℝ → String) : RouteResult :=
  let startNode := match customStartPoint with
    | some sp => findClosestNode subgraph sp.lat sp.lon
    | none => findCentroidNode subgraph
  let circuit := hierholzerWithTurnPreference subgraph startNode activePenalties
  let gpxContent := generateGPX circuit subgraph.nodes filename clock numToString
  let stats := calculateRouteStats circuit subgraph includedWays excludedWays
    componentCount
  let coordinates := circuit.filterMap
    (fun nodeId => (alistGet subgraph.nodes nodeId).map (fun n => (n.lat, n.lon)))
  let bounds := coordinates.foldl
    (fun (b : Bounds) c =>
      ⟨min b.minLat (c.1 : WithTop ℝ), max b.maxLat (c.1 : WithBot ℝ),
        min b.minLon (c.2 : WithTop ℝ), max b.maxLon (c.2 : WithBot ℝ)⟩)
    ⟨⊤, ⊥, ⊤, ⊥⟩
  ⟨gpxContent, stats, coordinates, bounds⟩

/-- `processRoute` — the full pipeline from typed OSM input. -/
noncomputable def processRoute (nodes : List (ℕ × OSMNode ℝ)) (ways : List OSMWay)
    (filename : String) (ignoreOneways : Bool)
    (customStartPoint : Option StartPoint)
    (penalties : Option (TurnPenaltyConfig ℝ)) (clock : Clock)
    (numToString : ℝ → String) : Except String RouteResult :=
  let activePenalties := penalties.getD defaultPenalties
  let fr := filterWays ways
  if fr.included = [] then
    Except.error "No valid road segments found in the OSM file"
  else
    let graph := buildGraph nodes fr.included ignoreOneways
    let scc := findLargestSCC graph
    if scc.subgraph.nodes = [] then
      Except.error "No connected road network found"
    else
      Except.ok (routeResultOf scc.subgraph scc.componentCount
        fr.included.length fr.excluded.length filename customStartPoint
        activePenalties clock numToString)

/-! ## Properties of the angle normalisation -/

theorem normLoopDown_spec {α : Type} [LinearOrderedField α] :
    ∀ (n : ℕ) (x : α), x ≤ 180 + 360 * n →
      normLoopDown n x ≤ 180 ∧
      (normLoopDown n x = x ∨ -180 < normLoopDown n x) ∧
      ∃ k : ℤ, normLoopDown n x = x - 360 * k := by
  intro n
  induction n with
  | zero =>
    intro x hx
    simp only [Nat.cast_zero, mul_zero, add_zero] at hx
    exact ⟨hx, Or.inl rfl, 0, by simp [normLoopDown]⟩
  | succ n ih =>
    intro x hx
    by_cases h : x > 180
    · have hx' : x - 360 ≤ 180 + 360 * n := by push_cast at hx ⊢; linarith
      obtain ⟨h1, h2, k, hk⟩ := ih (x - 360) hx'
      refine ⟨?_, ?_, ?_⟩
      · simpa only [normLoopDown, if_pos h] using h1
      · right
        rcases h2 with h2 | h2
        · simp only [normLoopDown, if_pos h, h2]; linarith
        · simpa only [normLoopDown, if_pos h] using h2
      · exact ⟨k + 1, by simp only [normLoopDown, if_pos h, hk]; push_cast; ring⟩
    · exact ⟨by simpa only [normLoopDown, if_neg h] using not_lt.1 h,
        Or.inl (by simp [normLoopDown, if_neg h]), 0,
        by simp [normLoopDown, if_neg h]⟩

theorem normLoopUp_spec {α : Type} [LinearOrderedField α] :
    ∀ (n : ℕ) (x : α), -180 - 360 * n ≤ x →
      -180 ≤ normLoopUp n x ∧
      (normLoopUp n x = x ∨ normLoopUp n x < 180) ∧
      ∃ k : ℤ, normLoopUp n x = x + 360 * k := by
  intro n
  induction n with
  | zero =>
    intro x hx
    simp only [Nat.cast_zero, mul_zero, sub_zero] at hx
    exact ⟨hx, Or.inl rfl, 0, by simp [normLoopUp]⟩
  | succ n ih =>
    intro x hx
    by_cases h : x < -180
    · have hx' : -180 - 360 * n ≤ x + 360 := by push_cast at hx ⊢; linarith
      obtain ⟨h1, h2, k, hk⟩ := ih (x + 360) hx'
      refine ⟨?_, ?_, ?_⟩
      · simpa only [normLoopUp, if_pos h] using h1
      · right
        rcases h2 with h2 | h2
        · simp only [normLoopUp, if_pos h, h2]; linarith
        · simpa only [normLoopUp, if_pos h] using h2
      · exact ⟨k + 1, by simp only [normLoopUp, if_pos h, hk]; push_cast; ring⟩
    · exact ⟨by simpa only [normLoopUp, if_neg h] using not_lt.1 h,
        Or.inl (by simp [normLoopUp, if_neg h]), 0,
        by simp [normLoopUp, if_neg h]⟩

/-- `normalizeAngle` lands in `[-180, 180]` and differs from its input
by a multiple of 360. -/
theorem normalizeAngle_spec {α : Type} [LinearOrderedField α] [FloorRing α]
    (x : α) :
    -180 ≤ normalizeAngle x ∧ normalizeAngle x ≤ 180 ∧
      ∃ k : ℤ, normalizeAngle x = x - 360 * k := by
  have hfuel : ∀ z : α, z ≤ 180 + 360 * (normFuel z : ℕ) := by
    intro z
    have h1 : z ≤ |z| := le_abs_self z
    have h2 : |z| / 360 ≤ (⌈|z| / 360⌉ : α) := Int.le_ceil _
    have h3 : (0 : ℤ) ≤ ⌈|z| / 360⌉ := by
      refine Int.ceil_nonneg ?_
      positivity
    have h4 : ((⌈|z| / 360⌉.toNat : ℕ) : α) = ((⌈|z| / 360⌉ : ℤ) : α) := by
      rw [← Int.cast_natCast, Int.toNat_of_nonneg h3]
    have h5 : ((normFuel z : ℕ) : α) = ((⌈|z| / 360⌉ : ℤ) : α) + 1 := by
      simp only [normFuel]
      push_cast
      rw [← h4]
    rw [h5]
    nlinarith [h2, h1, abs_nonneg z]
  have hfuel' : ∀ z : α, -180 - 360 * (normFuel z : ℕ) ≤ z := by
    intro z
    have h1 : -|z| ≤ z := neg_abs_le z
    have h2 : |z| / 360 ≤ (⌈|z| / 360⌉ : α) := Int.le_ceil _
    have h3 : (0 : ℤ) ≤ ⌈|z| / 360⌉ := by
      refine Int.ceil_nonneg ?_
      positivity
    have h4 : ((⌈|z| / 360⌉.toNat : ℕ) : α) = ((⌈|z| / 360⌉ : ℤ) : α) := by
      rw [← Int.cast_natCast, Int.toNat_of_nonneg h3]
    have h5 : ((normFuel z : ℕ) : α) = ((⌈|z| / 360⌉ : ℤ) : α) + 1 := by
      simp only [normFuel]
      push_cast
      rw [← h4]
    rw [h5]
    nlinarith [h2, h1, abs_nonneg z]
  obtain ⟨hd1, hd2, kd, hkd⟩ := normLoopDown_spec (normFuel x) x (hfuel x)
  set y := normLoopDown (normFuel x) x with hy
  obtain ⟨hu1, hu2, ku, hku⟩ := normLoopUp_spec (normFuel y) y (hfuel' y)
  have hna : normalizeAngle x = normLoopUp (normFuel y) y := by
    simp only [normalizeAngle, ← hy]
  refine ⟨by rw [hna]; exact hu1, ?_, ⟨kd - ku, by rw [hna, hku, hkd]; push_cast; ring⟩⟩
  rcases hu2 with h | h
  · rw [hna, h]; exact hd1
  · rw [hna]; linarith

/-! ## Claim C5 — `calculateTurnScore` against the spec's formula -/

/-- Modelled from the spec (§4.4): the unique representative of `x`
modulo 360 in the range `(−180, 180]`. -/
def specNormalize {α : Type} [LinearOrderedField α] [FloorRing α] (x : α) : α :=
  x - 360 * ⌈(x - 180) / 360⌉

/-- Modelled from the spec (§4.4): normalise the bearing difference
into `(−180°, 180°]`, then score by the four published cases. -/
def specTurnScoreModel {α : Type} [LinearOrderedField α] [FloorRing α]
    (incomingBearing outgoingBearing : α) (penalties : TurnPenaltyConfig α) : α :=
  let t := specNormalize (outgoingBearing - incomingBearing)
  if |t| > 150 then 500 + (|t| - 150) + penalties.uTurn
  else if |t| ≤ 20 then |t| + penalties.straight
  else if t > 20 then 20 + t + penalties.rightTurn
  else 160 + |t| + penalties.leftTurn

theorem specNormalize_spec {α : Type} [LinearOrderedField α] [FloorRing α]
    (x : α) :
    -180 < specNormalize x ∧ specNormalize x ≤ 180 ∧
      ∃ k : ℤ, specNormalize x = x - 360 * k := by
  have h1 : (x - 180) / 360 ≤ (⌈(x - 180) / 360⌉ : α) := Int.le_ceil _
  have h2 : (⌈(x - 180) / 360⌉ : α) < (x - 180) / 360 + 1 := Int.ceil_lt_add_one _
  refine ⟨?_, ?_, ⟨⌈(x - 180) / 360⌉, rfl⟩⟩
  · simp only [specNormalize]
    nlinarith [h2]
  · simp only [specNormalize]
    nlinarith [h1]

/-- The source normalisation agrees with the spec's except that the
source may return `-180` where the spec's range demands `180`. -/
theorem normalizeAngle_eq_specNormalize_or {α : Type} [LinearOrderedField α]
    [FloorRing α] (x : α) :
    normalizeAngle x = specNormalize x ∨
      (normalizeAngle x = -180 ∧ specNormalize x = 180) := by
  obtain ⟨hn1, hn2, kn, hkn⟩ := normalizeAngle_spec x
  obtain ⟨hs1, hs2, ks, hks⟩ := specNormalize_spec x
  have hd : normalizeAngle x - specNormalize x = 360 * ((ks : α) - (kn : α)) := by
    rw [hkn, hks]; ring
  have hb1 : -360 ≤ 360 * ((ks : α) - (kn : α)) := by rw [← hd]; linarith
  have hb2 : 360 * ((ks : α) - (kn : α)) < 360 := by rw [← hd]; linarith
  have hz : ks - kn = 0 ∨ ks - kn = -1 := by
    have hc1 : (-1 : α) ≤ ((ks - kn : ℤ) : α) := by push_cast; linarith
    have hc2 : ((ks - kn : ℤ) : α) < 1 := by push_cast; linarith
    have hi1 : (-1 : ℤ) ≤ ks - kn := by exact_mod_cast hc1
    have hi2 : (ks - kn : ℤ) < 1 := by exact_mod_cast hc2
    omega
  rcases hz with hz | hz
  · left
    have : (ks : α) - kn = 0 := by exact_mod_cast congrArg (fun i : ℤ => (i : α)) hz
    linarith [hd, this]
  · right
    have hcast : (ks : α) - kn = -1 := by exact_mod_cast congrArg (fun i : ℤ => (i : α)) hz
    have hdiff : normalizeAngle x - specNormalize x = -360 := by
      rw [hd, hcast]; ring
    constructor <;> linarith

/-- C5: for every incoming bearing, outgoing bearing and nonnegative
penalty configuration, `calculateTurnScore` returns exactly the spec's
formula: normalise `outgoingBearing − incomingBearing` into
`(−180°, 180°]`, then `500 + (|t| − 150) + uTurn` when `|t| > 150`,
`|t| + straight` when `|t| ≤ 20`, `20 + t + rightTurn` when `t > 20`,
and `160 + |t| + leftTurn` otherwise. -/
theorem C5_calculateTurnScore_matches_spec {α : Type} [LinearOrderedField α]
    [FloorRing α] (incomingBearing outgoingBearing : α)
    (penalties : TurnPenaltyConfig α)
    (hs : 0 ≤ penalties.straight) (hr : 0 ≤ penalties.rightTurn)
    (hl : 0 ≤ penalties.leftTurn) (hu : 0 ≤ penalties.uTurn) :
    calculateTurnScore incomingBearing outgoingBearing penalties =
      specTurnScoreModel incomingBearing outgoingBearing penalties := by
  rcases normalizeAngle_eq_specNormalize_or (outgoingBearing - incomingBearing)
    with h | ⟨h1, h2⟩
  · simp only [calculateTurnScore, specTurnScoreModel, h]
    set t := specNormalize (outgoingBearing - incomingBearing) with ht
    by_cases habs : |t| > 150
    · simp [habs]
    · by_cases hle : |t| ≤ 20
      · simp [habs, hle]
      · have h20 : (20 : α) < |t| := not_le.1 hle
        by_cases hpos : t > 0
        · have h20t : t > 20 := by
            rcases abs_cases t with ⟨he, _⟩ | ⟨he, _⟩ <;> linarith
          simp [habs, hle, hpos, h20t]
        · have hn20 : ¬ ((20 : α) < t) := by
            have := not_lt.1 hpos
            intro hc; linarith
          simp [habs, hle, hpos, hn20]
  · simp only [calculateTurnScore, specTurnScoreModel, h1, h2]
    rw [show |(-180 : α)| = 180 by rw [abs_neg]; exact abs_of_nonneg (by norm_num)]
    rw [show |(180 : α)| = 180 from abs_of_nonneg (by norm_num)]
    norm_num

/-- C5 witness: the theorem applied at a concrete input with the
nonnegativity hypotheses discharged. -/
theorem C5_witness :
    (0 : ℚ) ≤ (0 : ℚ) ∧
      calculateTurnScore (0 : ℚ) 200 ⟨0, 10, 50, 500⟩ =
        specTurnScoreModel (0 : ℚ) 200 ⟨0, 10, 50, 500⟩ :=
  ⟨le_refl 0,
    C5_calculateTurnScore_matches_spec 0 200 ⟨0, 10, 50, 500⟩
      (by norm_num) (by norm_num) (by norm_num) (by norm_num)⟩

/-! ## Claim C10 — `haversineDistance` reference values -/

/-- The great-circle distance from a point to itself is exactly 0. -/
theorem haversineDistance_self (lat lon : ℝ) :
    haversineDistance lat lon lat lon = 0 := by
  simp [haversineDistance, mathAtan2]

/-- `haversineDistance (0,0) (0,90)` evaluates exactly to a quarter of
a great circle. -/
theorem haversineDistance_zero_to_ninety :
    haversineDistance 0 0 0 90 = 6371000 * (Real.pi / 2) := by
  have h1 : ((90:ℝ) - 0) * Real.pi / 180 / 2 = Real.pi / 4 := by ring
  have h2 : ((0:ℝ) - 0) * Real.pi / 180 / 2 = 0 := by ring
  have h3 : (0:ℝ) * Real.pi / 180 = 0 := by ring
  simp only [haversineDistance]
  rw [h1, h2, h3]
  rw [Real.sin_zero, Real.cos_zero, Real.sin_pi_div_four]
  have ha : (0:ℝ)^2 + 1 * 1 * (Real.sqrt 2 / 2)^2 = 1/2 := by
    rw [div_pow, Real.sq_sqrt (by norm_num : (0:ℝ) ≤ 2)]; norm_num
  rw [ha]
  have hb : (1:ℝ) - 1/2 = 1/2 := by norm_num
  rw [hb]
  have hpos : 0 < Real.sqrt (1/2 : ℝ) := Real.sqrt_pos.2 (by norm_num)
  simp only [mathAtan2]
  rw [if_pos hpos, div_self (ne_of_gt hpos), Real.arctan_one]
  ring

/-- C10: `haversineDistance` between (45, −73) and itself is 0, and
from (0, 0) to (0, 90) it equals (π/2) × 6 371 000, which is within
0.5 % of 10 007 543 m. -/
theorem C10_haversine_reference_values :
    haversineDistance 45 (-73) 45 (-73) = 0 ∧
      haversineDistance 0 0 0 90 = Real.pi / 2 * 6371000 ∧
      |Real.pi / 2 * 6371000 - 10007543| ≤ 0.5 / 100 * 10007543 := by
  refine ⟨haversineDistance_self 45 (-73), ?_, ?_⟩
  · rw [haversineDistance_zero_to_ninety]; ring
  · have hlo := Real.pi_gt_d6
    have hhi := Real.pi_lt_d6
    rw [abs_le]
    constructor <;> nlinarith [hlo, hhi]

/-! ## Euler-circuit analysis of `hierholzerWithTurnPreference`

Infrastructure: the vertices of the stack bottom-to-top, the
consecutive pairs of a vertex list, the `(source, target)` pairs of a
working adjacency list, and in/out pair counts. -/

/-- Stack vertices from bottom (the start vertex) to top (current). -/
def stackNodes {α : Type} (stack : List (HHFrame α)) : List ℕ :=
  (stack.map HHFrame.node).reverse

/-- Consecutive pairs of a vertex list. -/
def walkPairs (l : List ℕ) : List (ℕ × ℕ) :=
  l.zip l.tail

/-- All `(source, target)` arc pairs of a working adjacency list. -/
def remPairs {α : Type} (rem : List (ℕ × List (GraphEntry α))) : List (ℕ × ℕ) :=
  rem.flatMap (fun p => p.2.map (fun e => (p.1, e.dst)))

/-- All `(source, target)` arc pairs of a graph. -/
def graphArcs {α : Type} (graph : Graph α) : List (ℕ × ℕ) :=
  remPairs graph.adjacency

/-- Number of pairs leaving `v`. -/
def outDegM (M : Multiset (ℕ × ℕ)) (v : ℕ) : ℕ :=
  Multiset.countP (fun q => q.1 = v) M

/-- Number of pairs entering `v`. -/
def inDegM (M : Multiset (ℕ × ℕ)) (v : ℕ) : ℕ :=
  Multiset.countP (fun q => q.2 = v) M

theorem walkPairs_cons₂ (a b : ℕ) (t : List ℕ) :
    walkPairs (a :: b :: t) = (a, b) :: walkPairs (b :: t) := rfl

theorem walkPairs_append_last :
    ∀ (l : List ℕ) (h : l ≠ []) (w : ℕ),
      walkPairs (l ++ [w]) = walkPairs l ++ [(l.getLast h, w)]
  | [], h, _ => absurd rfl h
  | [a], _, w => rfl
  | a :: b :: t, _, w => by
    have ih := walkPairs_append_last (b :: t) (by simp) w
    simp only [List.cons_append, walkPairs_cons₂] at ih ⊢
    rw [ih]
    simp [List.getLast]

theorem walkPairs_length (l : List ℕ) (h : l ≠ []) :
    (walkPairs l).length = l.length - 1 := by
  simp [walkPairs]

theorem walkPairs_mem_right {u w : ℕ} {l : List ℕ}
    (hm : (u, w) ∈ walkPairs l) : w ∈ l := by
  have := List.of_mem_zip hm
  exact (List.tail_sublist l).mem this.2

/-- Pair-count telescope along a walk. -/
theorem walkPairs_telescope (v : ℕ) :
    ∀ (l : List ℕ) (h : l ≠ []),
      outDegM ↑(walkPairs l) v + (if l.getLast h = v then 1 else 0) =
        inDegM ↑(walkPairs l) v + (if l.head h = v then 1 else 0)
  | [], h => absurd rfl h
  | [a], _ => by simp [walkPairs, outDegM, inDegM]
  | a :: b :: t, _ => by
    have ih := walkPairs_telescope v (b :: t) (by simp)
    simp only [walkPairs_cons₂, List.getLast_cons (by simp : b :: t ≠ [])] at *
    have hout : outDegM ↑((a, b) :: walkPairs (b :: t)) v =
        (if a = v then 1 else 0) + outDegM ↑(walkPairs (b :: t)) v := by
      simp only [outDegM, ← Multiset.cons_coe, Multiset.countP_cons]
      omega
    have hin : inDegM ↑((a, b) :: walkPairs (b :: t)) v =
        (if b = v then 1 else 0) + inDegM ↑(walkPairs (b :: t)) v := by
      simp only [inDegM, ← Multiset.cons_coe, Multiset.countP_cons]
      omega
    rw [hout, hin]
    simp only [List.head_cons] at ih ⊢
    by_cases hav : a = v <;> by_cases hbv : b = v <;> simp [hav, hbv] at ih ⊢ <;> omega

/-! ### Association-list lemmas -/

theorem alistGet_mem {α β : Type} [DecidableEq α] :
    ∀ {l : List (α × β)} {k : α} {v : β}, alistGet l k = some v → (k, v) ∈ l := by
  intro l
  induction l with
  | nil => intro k v h; simp [alistGet] at h
  | cons p t ih =>
    obtain ⟨a, b⟩ := p
    intro k v h
    by_cases hk : a = k
    · simp only [alistGet, if_pos hk] at h
      have hv : b = v := Option.some_inj.1 h
      subst hk; subst hv
      exact List.mem_cons_self _ _
    · simp only [alistGet, if_neg hk] at h
      exact List.mem_cons_of_mem _ (ih h)

theorem alistGet_alistSet_ne {α β : Type} [DecidableEq α] :
    ∀ (l : List (α × β)) (n k : α) (v : β), k ≠ n →
      alistGet (alistSet l n v) k = alistGet l k := by
  intro l
  induction l with
  | nil =>
    intro n k v h
    simp only [alistSet, alistGet, if_neg (Ne.symm h)]
  | cons p t ih =>
    obtain ⟨a, b⟩ := p
    intro n k v h
    by_cases ha : a = n
    · subst ha
      simp only [alistSet, if_pos rfl, alistGet, if_neg (Ne.symm h)]
    · simp only [alistSet, if_neg ha, alistGet]
      by_cases hk : a = k
      · simp [hk]
      · simp [hk, ih n k v h]

theorem alistSet_mem {α β : Type} [DecidableEq α] :
    ∀ {l : List (α × β)} {n : α} {v : β} {p : α × β},
      p ∈ alistSet l n v → p = (n, v) ∨ p ∈ l := by
  intro l
  induction l with
  | nil =>
    intro n v p h
    simp only [alistSet, List.mem_singleton] at h
    exact Or.inl h
  | cons q t ih =>
    obtain ⟨a, b⟩ := q
    intro n v p h
    by_cases ha : a = n
    · subst ha
      simp only [alistSet, if_pos rfl] at h
      rcases List.mem_cons.1 h with h | h
      · exact Or.inl h
      · exact Or.inr (List.mem_cons_of_mem _ h)
    · simp only [alistSet, if_neg ha] at h
      rcases List.mem_cons.1 h with h | h
      · exact Or.inr (by simp [h])
      · rcases ih h with h' | h'
        · exact Or.inl h'
        · exact Or.inr (List.mem_cons_of_mem _ h')

theorem alistSet_keys_nodup {α β : Type} [DecidableEq α] :
    ∀ (l : List (α × β)) (n : α) (v : β), (l.map Prod.fst).Nodup →
      ((alistSet l n v).map Prod.fst).Nodup := by
  intro l
  induction l with
  | nil => intro n v _; simp [alistSet]
  | cons q t ih =>
    obtain ⟨a, b⟩ := q
    intro n v h
    simp only [List.map_cons, List.nodup_cons] at h
    by_cases ha : a = n
    · subst ha
      have hset : alistSet ((a, b) :: t) a v = (a, v) :: t := by simp [alistSet]
      rw [hset]
      simpa using h
    · simp only [alistSet, if_neg ha, List.map_cons, List.nodup_cons]
      refine ⟨?_, ih n v h.2⟩
      intro hc
      simp only [List.mem_map] at hc
      obtain ⟨p, hp, hap⟩ := hc
      rcases alistSet_mem hp with h' | h'
      · rw [h'] at hap
        exact ha hap.symm
      · exact h.1 (List.mem_map.2 ⟨p, h', hap⟩)

theorem alistSet_of_not_mem {α β : Type} [DecidableEq α] :
    ∀ (l : List (α × β)) (n : α) (v : β), n ∉ l.map Prod.fst →
      alistSet l n v = l ++ [(n, v)] := by
  intro l
  induction l with
  | nil => intro n v _; rfl
  | cons q t ih =>
    obtain ⟨a, b⟩ := q
    intro n v h
    simp only [List.map_cons, List.mem_cons] at h
    push_neg at h
    have hne : ¬ a = n := fun hc => h.1 hc.symm
    simp only [alistSet, if_neg hne, List.cons_append, List.cons.injEq, true_and]
    exact ih n v h.2

theorem alistGet_not_mem {α β : Type} [DecidableEq α] :
    ∀ (l : List (α × β)) (k : α), k ∉ l.map Prod.fst → alistGet l k = none := by
  intro l
  induction l with
  | nil => intro k _; rfl
  | cons q t ih =>
    obtain ⟨a, b⟩ := q
    intro k h
    simp only [List.map_cons, List.mem_cons] at h
    push_neg at h
    have hne : ¬ a = k := fun hc => h.1 hc.symm
    simp only [alistGet, if_neg hne]
    exact ih k h.2

/-! ### `remPairs` lemmas -/

theorem remPairs_cons {α : Type} (n : ℕ) (es : List (GraphEntry α))
    (t : List (ℕ × List (GraphEntry α))) :
    remPairs ((n, es) :: t) = es.map (fun e => (n, e.dst)) ++ remPairs t := rfl

theorem remPairs_length {α : Type} (rem : List (ℕ × List (GraphEntry α))) :
    (remPairs rem).length = remArcCount rem := by
  induction rem with
  | nil => rfl
  | cons p t ih =>
    obtain ⟨a, es⟩ := p
    simp only [remPairs_cons, List.length_append, List.length_map,
      remArcCount, List.map_cons, List.sum_cons] at *
    omega

theorem remPairs_set {α : Type} :
    ∀ (rem : List (ℕ × List (GraphEntry α))) (n : ℕ)
      (l l' : List (GraphEntry α)), alistGet rem n = some l →
      (↑(remPairs (alistSet rem n l')) : Multiset (ℕ × ℕ)) +
          ↑(l.map (fun e => (n, e.dst))) =
        ↑(remPairs rem) + ↑(l'.map (fun e => (n, e.dst))) := by
  intro rem
  induction rem with
  | nil => intro n l l' h; simp [alistGet] at h
  | cons p t ih =>
    obtain ⟨a, es⟩ := p
    intro n l l' h
    by_cases ha : a = n
    · subst ha
      have hga : alistGet ((a, es) :: t) a = some es := by simp [alistGet]
      rw [hga] at h
      have hl : es = l := Option.some_inj.1 h
      subst hl
      have hset : alistSet ((a, es) :: t) a l' = (a, l') :: t := by
        simp [alistSet]
      rw [hset, remPairs_cons, remPairs_cons]
      simp only [← Multiset.coe_add]
      abel
    · simp only [alistGet, if_neg ha] at h
      simp only [alistSet, if_neg ha, remPairs_cons, ← Multiset.coe_add]
      have hrec := ih n l l' h
      calc (↑(es.map (fun e => (a, e.dst))) : Multiset (ℕ × ℕ)) +
            ↑(remPairs (alistSet t n l')) + ↑(l.map (fun e => (n, e.dst)))
          = ↑(es.map (fun e => (a, e.dst))) +
            ((↑(remPairs (alistSet t n l')) : Multiset (ℕ × ℕ)) +
              ↑(l.map (fun e => (n, e.dst)))) := by abel
        _ = ↑(es.map (fun e => (a, e.dst))) +
            ((↑(remPairs t) : Multiset (ℕ × ℕ)) +
              ↑(l'.map (fun e => (n, e.dst)))) := by rw [hrec]
        _ = ↑(es.map (fun e => (a, e.dst))) + ↑(remPairs t) +
              ↑(l'.map (fun e => (n, e.dst))) := by abel

theorem remArcCount_set {α : Type} (rem : List (ℕ × List (GraphEntry α)))
    (n : ℕ) (l l' : List (GraphEntry α)) (h : alistGet rem n = some l) :
    remArcCount (alistSet rem n l') + l.length = remArcCount rem + l'.length := by
  have hc := congrArg Multiset.card (remPairs_set rem n l l' h)
  simpa [remPairs_length] using hc

theorem not_mem_keys_outDeg_zero {α : Type} :
    ∀ (rem : List (ℕ × List (GraphEntry α))) (n : ℕ),
      n ∉ rem.map Prod.fst → outDegM ↑(remPairs rem) n = 0 := by
  intro rem
  induction rem with
  | nil => intro n _; simp [remPairs, outDegM]
  | cons p t ih =>
    obtain ⟨a, es⟩ := p
    intro n h
    simp only [List.map_cons, List.mem_cons] at h
    push_neg at h
    simp only [remPairs_cons, outDegM, ← Multiset.coe_add, Multiset.countP_add]
    have h1 : Multiset.countP (fun q => q.1 = n)
        (↑(es.map (fun e => (a, e.dst))) : Multiset (ℕ × ℕ)) = 0 := by
      rw [Multiset.countP_eq_zero]
      intro q hq
      simp only [Multiset.mem_coe, List.mem_map] at hq
      obtain ⟨e, _, he⟩ := hq
      rw [← he]
      exact fun hc => h.1 (by simpa using hc.symm)
    rw [h1]
    simpa [outDegM] using ih n h.2

theorem stuck_outDeg_zero {α : Type} :
    ∀ (rem : List (ℕ × List (GraphEntry α))) (n : ℕ),
      (rem.map Prod.fst).Nodup → (alistGet rem n).getD [] = [] →
      outDegM ↑(remPairs rem) n = 0 := by
  intro rem
  induction rem with
  | nil => intro n _ _; simp [remPairs, outDegM]
  | cons p t ih =>
    obtain ⟨a, es⟩ := p
    intro n hnd hget
    simp only [List.map_cons, List.nodup_cons] at hnd
    by_cases ha : a = n
    · subst ha
      simp only [alistGet, if_pos rfl, Option.getD_some] at hget
      subst hget
      simp only [remPairs_cons, List.map_nil, List.nil_append]
      exact not_mem_keys_outDeg_zero t a hnd.1
    · simp only [alistGet, if_neg ha] at hget
      simp only [remPairs_cons, outDegM, ← Multiset.coe_add, Multiset.countP_add]
      have h1 : Multiset.countP (fun q => q.1 = n)
          (↑(es.map (fun e => (a, e.dst))) : Multiset (ℕ × ℕ)) = 0 := by
        rw [Multiset.countP_eq_zero]
        intro q hq
        simp only [Multiset.mem_coe, List.mem_map] at hq
        obtain ⟨e, _, he⟩ := hq
        rw [← he]
        exact fun hc => ha (by simpa using hc)
      rw [h1]
      simpa [outDegM] using ih n hnd.2 hget

/-! ### Edge-selection and removal lemmas -/

theorem firstMinBy_mem {α : Type} [LinearOrder α] {β : Type} (score : β → α) :
    ∀ (es : List β) (e0 : β), firstMinBy score e0 es = e0 ∨ firstMinBy score e0 es ∈ es := by
  intro es
  induction es with
  | nil => intro e0; exact Or.inl rfl
  | cons e t ih =>
    intro e0
    simp only [firstMinBy, List.foldl_cons]
    by_cases h : score e < score e0
    · rw [if_pos h]
      rcases ih e with h' | h'
      · exact Or.inr (by simp [firstMinBy] at h' ⊢; simp [h'])
      · exact Or.inr (List.mem_cons_of_mem _ (by simpa [firstMinBy] using h'))
    · rw [if_neg h]
      rcases ih e0 with h' | h'
      · exact Or.inl (by simpa [firstMinBy] using h')
      · exact Or.inr (List.mem_cons_of_mem _ (by simpa [firstMinBy] using h'))

theorem hhSelect_mem {α : Type} [LinearOrderedField α] [FloorRing α]
    (ib : Option α) (p : TurnPenaltyConfig α) (e0 : GraphEntry α)
    (es : List (GraphEntry α)) : hhSelect ib p e0 es ∈ e0 :: es := by
  match ib, es with
  | some b, e :: es' =>
    simp only [hhSelect]
    rcases firstMinBy_mem
      (fun e => calculateTurnScore b e.data.bearing p) (e :: es') e0 with h | h
    · rw [h]; exact List.mem_cons_self _ _
    · exact List.mem_cons_of_mem _ h
  | some _, [] => simp [hhSelect]
  | none, es => simp [hhSelect]

theorem removeFirstByKey_perm {α : Type} :
    ∀ (l : List (GraphEntry α)) (e : GraphEntry α), e ∈ l →
      (l.map GraphEntry.key).Nodup →
      l.Perm (e :: removeFirstByKey e.key l) := by
  intro l
  induction l with
  | nil => intro e he _; simp at he
  | cons f t ih =>
    intro e he hnd
    simp only [List.map_cons, List.nodup_cons] at hnd
    by_cases hk : f.key = e.key
    · have hef : e = f := by
        rcases List.mem_cons.1 he with h | h
        · exact h
        · exfalso
          exact hnd.1 (hk ▸ List.mem_map.2 ⟨e, h, rfl⟩)
      subst hef
      simp [removeFirstByKey]
    · have het : e ∈ t := by
        rcases List.mem_cons.1 he with h | h
        · exact absurd (congrArg GraphEntry.key h.symm) hk
        · exact h
      have hrec := ih e het hnd.2
      have h1 : (f :: t).Perm (f :: (e :: removeFirstByKey e.key t)) :=
        hrec.cons f
      have h2 : (f :: (e :: removeFirstByKey e.key t)).Perm
          (e :: (f :: removeFirstByKey e.key t)) := List.Perm.swap e f _
      have h3 : e :: removeFirstByKey e.key (f :: t) =
          e :: (f :: removeFirstByKey e.key t) := by
        simp [removeFirstByKey, if_neg hk]
      rw [h3]
      exact h1.trans h2

/-- Multiset form: removing the selected edge removes exactly its pair. -/
theorem removeFirstByKey_pairs {α : Type} (n : ℕ) (l : List (GraphEntry α))
    (e : GraphEntry α) (he : e ∈ l) (hnd : (l.map GraphEntry.key).Nodup) :
    (↑(l.map (fun e' => (n, e'.dst))) : Multiset (ℕ × ℕ)) =
      (n, e.dst) ::ₘ ↑((removeFirstByKey e.key l).map (fun e' => (n, e'.dst))) := by
  have hp := removeFirstByKey_perm l e he hnd
  have hp2 := hp.map (fun e' => (n, e'.dst))
  have := Multiset.coe_eq_coe.2 hp2
  simpa using this

theorem removeFirstByKey_length {α : Type} (l : List (GraphEntry α))
    (e : GraphEntry α) (he : e ∈ l) (hnd : (l.map GraphEntry.key).Nodup) :
    l.length = (removeFirstByKey e.key l).length + 1 := by
  have hp := removeFirstByKey_perm l e he hnd
  simpa using hp.length_eq

theorem removeFirstByKey_keys_sublist {α : Type} :
    ∀ (l : List (GraphEntry α)) (k : ℕ),
      (removeFirstByKey k l).Sublist l := by
  intro l
  induction l with
  | nil => intro k; simp [removeFirstByKey]
  | cons f t ih =>
    intro k
    by_cases hk : f.key = k
    · simp only [removeFirstByKey, if_pos hk]
      exact List.sublist_cons_self _ _
    · simp only [removeFirstByKey, if_neg hk]
      exact (ih k).cons₂ f

/-! ### Stack-vertex lemmas -/

theorem stackNodes_cons {α : Type} (f : HHFrame α) (rest : List (HHFrame α)) :
    stackNodes (f :: rest) = stackNodes rest ++ [f.node] := by
  simp [stackNodes]

theorem stackNodes_ne_nil {α : Type} (f : HHFrame α) (rest : List (HHFrame α)) :
    stackNodes (f :: rest) ≠ [] := by
  simp [stackNodes_cons]

theorem stackNodes_getLast {α : Type} (f : HHFrame α) (rest : List (HHFrame α))
    (h : stackNodes (f :: rest) ≠ []) :
    (stackNodes (f :: rest)).getLast h = f.node := by
  simp [stackNodes_cons]

theorem stackNodes_head_cons {α : Type} (f : HHFrame α) (g : HHFrame α)
    (rest : List (HHFrame α)) :
    (stackNodes (f :: g :: rest)).head? = (stackNodes (g :: rest)).head? := by
  rw [stackNodes_cons f (g :: rest)]
  exact List.head?_append_of_ne_nil _ (stackNodes_ne_nil g rest)

/-! ### The loop invariant

`A` is the multiset of arcs of the input graph.  The consumed arcs are
always partitioned into: the consecutive pairs of the stack (a trail
from the start vertex to the current top), the consecutive pairs of the
finished part of the circuit read in traversal order, and — once the
first vertex has been finished — one pending arc into the most recently
finished vertex. -/

structure HHInv {α : Type} (A : Multiset (ℕ × ℕ)) (start : ℕ)
    (s : HHState α) : Prop where
  keysNodup : (s.rem.map Prod.fst).Nodup
  entryKeysNodup : ∀ p ∈ s.rem, (p.2.map GraphEntry.key).Nodup
  circuitStuck : ∀ v ∈ s.circuit, (alistGet s.rem v).getD [] = []
  stackBottom : s.stack ≠ [] → (stackNodes s.stack).head? = some start
  circuitHead : s.circuit ≠ [] → s.circuit.head? = some start
  equation :
    match s.stack, s.circuit with
    | [], c =>
      A = ↑(remPairs s.rem) + ↑(walkPairs c.reverse) ∧ c ≠ [] ∧
        c.getLast? = some start
    | _ :: _, [] =>
      A = ↑(remPairs s.rem) + ↑(walkPairs (stackNodes s.stack))
    | _ :: _, c0 :: cr =>
      ∃ x om, (c0 :: cr).getLast? = some om ∧
        A = ↑(remPairs s.rem) + ↑(walkPairs (stackNodes s.stack)) +
          ↑(walkPairs ((c0 :: cr).reverse)) + {(x, om)}

theorem outDegM_add (M N : Multiset (ℕ × ℕ)) (v : ℕ) :
    outDegM (M + N) v = outDegM M v + outDegM N v :=
  Multiset.countP_add _ _ _

theorem inDegM_add (M N : Multiset (ℕ × ℕ)) (v : ℕ) :
    inDegM (M + N) v = inDegM M v + inDegM N v :=
  Multiset.countP_add _ _ _

theorem outDegM_singleton (a b v : ℕ) :
    outDegM {(a, b)} v = if a = v then 1 else 0 := by
  have : ({(a, b)} : Multiset (ℕ × ℕ)) = (a, b) ::ₘ 0 := rfl
  rw [outDegM, this, Multiset.countP_cons]
  simp

theorem inDegM_singleton (a b v : ℕ) :
    inDegM {(a, b)} v = if b = v then 1 else 0 := by
  have : ({(a, b)} : Multiset (ℕ × ℕ)) = (a, b) ::ₘ 0 := rfl
  rw [inDegM, this, Multiset.countP_cons]
  simp

/-- A maximal trail from `start` in a balanced graph can only get stuck
at `start` (case: nothing finished yet). -/
theorem first_pop_start {α : Type} {A : Multiset (ℕ × ℕ)} {start t : ℕ}
    {rem : List (ℕ × List (GraphEntry α))} {sn : List ℕ}
    (hbal : ∀ v, outDegM A v = inDegM A v)
    (hknd : (rem.map Prod.fst).Nodup)
    (hstuck : (alistGet rem t).getD [] = [])
    (hsn : sn ≠ []) (hhead : sn.head? = some start)
    (hlast : sn.getLast hsn = t)
    (heq : A = ↑(remPairs rem) + ↑(walkPairs sn)) : t = start := by
  have htele := walkPairs_telescope t sn hsn
  rw [hlast, if_pos rfl] at htele
  have hrp0 : outDegM ↑(remPairs rem) t = 0 := stuck_outDeg_zero rem t hknd hstuck
  have hb := hbal t
  rw [heq, outDegM_add, inDegM_add, hrp0] at hb
  have hh : sn.head hsn = start := by
    have := List.head?_eq_head (l := sn) hsn
    rw [hhead] at this
    exact (Option.some_inj.1 this).symm
  by_cases hts : sn.head hsn = t
  · rw [← hts, hh]
  · rw [if_neg hts] at htele
    omega

/-- A maximal trail from `start` in a balanced graph can only get stuck
at the pending vertex (case: part of the circuit already finished). -/
theorem mid_pop_pending {α : Type} {A : Multiset (ℕ × ℕ)} {start t x om : ℕ}
    {rem : List (ℕ × List (GraphEntry α))} {sn ow : List ℕ}
    (hbal : ∀ v, outDegM A v = inDegM A v)
    (hknd : (rem.map Prod.fst).Nodup)
    (hstuck : (alistGet rem t).getD [] = [])
    (hsn : sn ≠ []) (hsnhead : sn.head? = some start)
    (hsnlast : sn.getLast hsn = t)
    (how : ow ≠ []) (howhead : ow.head how = om)
    (howlast : ow.getLast how = start)
    (heq : A = ↑(remPairs rem) + ↑(walkPairs sn) + ↑(walkPairs ow) +
      {(x, om)}) : x = t := by
  by_cases hxt : x = t
  · exact hxt
  · exfalso
    have hsntele := walkPairs_telescope t sn hsn
    rw [hsnlast, if_pos rfl] at hsntele
    have howtele := walkPairs_telescope t ow how
    rw [howhead, howlast] at howtele
    have hrp0 : outDegM ↑(remPairs rem) t = 0 :=
      stuck_outDeg_zero rem t hknd hstuck
    have hb := hbal t
    rw [heq, outDegM_add, outDegM_add, outDegM_add, inDegM_add, inDegM_add,
      inDegM_add, hrp0, outDegM_singleton, inDegM_singleton,
      if_neg hxt] at hb
    have hh : sn.head hsn = start := by
      have := List.head?_eq_head (l := sn) hsn
      rw [hsnhead] at this
      exact (Option.some_inj.1 this).symm
    rw [hh] at hsntele
    by_cases hst : start = t <;> by_cases homt : om = t <;>
      simp only [hst, homt, if_pos, if_neg, if_true, if_false] at hsntele howtele hb <;>
      omega

theorem walkPairs_cons_ne (a : ℕ) (l : List ℕ) (h : l ≠ []) :
    walkPairs (a :: l) = (a, l.head h) :: walkPairs l := by
  cases l with
  | nil => exact absurd rfl h
  | cons b t => rfl

theorem stackNodes_length {α : Type} (stack : List (HHFrame α)) :
    (stackNodes stack).length = stack.length := by
  simp [stackNodes]

theorem coe_append (l l' : List (ℕ × ℕ)) :
    (↑(l ++ l') : Multiset (ℕ × ℕ)) = ↑l + ↑l' :=
  (Multiset.coe_add _ _).symm

theorem cons_coe_eq_add (a : ℕ × ℕ) (l : List (ℕ × ℕ)) :
    (↑(a :: l) : Multiset (ℕ × ℕ)) = ↑l + {a} := by
  rw [← Multiset.cons_coe, ← Multiset.singleton_add, add_comm]

theorem hhLoop_spec {α : Type} [LinearOrderedField α] [FloorRing α]
    (p : TurnPenaltyConfig α) (A : Multiset (ℕ × ℕ)) (start : ℕ)
    (hbal : ∀ v, outDegM A v = inDegM A v) :
    ∀ (fuel : ℕ) (s : HHState α), HHInv A start s →
      2 * remArcCount s.rem + s.stack.length ≤ fuel →
      HHInv A start (hhLoop p fuel s) ∧ (hhLoop p fuel s).stack = [] := by
  intro fuel
  induction fuel with
  | zero =>
    intro s hinv hm
    have hst : s.stack = [] := by
      cases hs : s.stack with
      | nil => rfl
      | cons f r => rw [hs] at hm; simp only [List.length_cons] at hm; omega
    exact ⟨hinv, hst⟩
  | succ fuel ih =>
    intro s hinv hm
    obtain ⟨rem, stack, circuit⟩ := s
    cases stack with
    | nil => exact ⟨hinv, rfl⟩
    | cons frame rest =>
      simp only [List.length_cons] at hm
      cases hedges : (alistGet rem frame.node).getD [] with
      | nil =>
        have hstep : hhLoop p (fuel + 1) ⟨rem, frame :: rest, circuit⟩ =
            hhLoop p fuel ⟨rem, rest, circuit ++ [frame.node]⟩ := by
          simp only [hhLoop, hedges]
        rw [hstep]
        have hsn_ne : stackNodes (frame :: rest) ≠ [] := stackNodes_ne_nil frame rest
        have hsn_last := stackNodes_getLast frame rest hsn_ne
        have hsb : (stackNodes (frame :: rest)).head? = some start :=
          hinv.stackBottom (by simp)
        have hinv' : HHInv A start ⟨rem, rest, circuit ++ [frame.node]⟩ := by
          cases circuit with
          | nil =>
            have heq : A = ↑(remPairs rem) +
                ↑(walkPairs (stackNodes (frame :: rest))) := hinv.equation
            have hts : frame.node = start :=
              first_pop_start hbal hinv.keysNodup hedges hsn_ne hsb hsn_last heq
            cases rest with
            | nil =>
              refine ⟨hinv.keysNodup, hinv.entryKeysNodup, ?_, ?_, ?_, ?_⟩
              · intro v hv
                simp only [List.nil_append, List.mem_singleton] at hv
                rw [hv]; exact hedges
              · intro h; exact absurd rfl h
              · intro _
                simp only [List.nil_append, List.head?_cons, hts]
              · show A = ↑(remPairs rem) +
                    ↑(walkPairs ((([] : List ℕ) ++ [frame.node]).reverse)) ∧
                    ([] : List ℕ) ++ [frame.node] ≠ [] ∧
                    (([] : List ℕ) ++ [frame.node]).getLast? = some start
                refine ⟨?_, by simp, by simp [hts]⟩
                have hz : walkPairs (stackNodes
                    (frame :: ([] : List (HHFrame α)))) = [] := by
                  simp [stackNodes, walkPairs]
                rw [hz] at heq
                simpa [walkPairs] using heq
            | cons g r' =>
              refine ⟨hinv.keysNodup, hinv.entryKeysNodup, ?_, ?_, ?_, ?_⟩
              · intro v hv
                simp only [List.nil_append, List.mem_singleton] at hv
                rw [hv]; exact hedges
              · intro _
                rw [← stackNodes_head_cons frame g r']
                exact hsb
              · intro _
                simp only [List.nil_append, List.head?_cons, hts]
              · show ∃ x' om', (([] : List ℕ) ++ [frame.node]).getLast? = some om' ∧
                  A = ↑(remPairs rem) + ↑(walkPairs (stackNodes (g :: r'))) +
                    ↑(walkPairs ((([] : List ℕ) ++ [frame.node]).reverse)) + {(x', om')}
                have hsn' : stackNodes (g :: r') ≠ [] := stackNodes_ne_nil g r'
                refine ⟨(stackNodes (g :: r')).getLast hsn', frame.node, by simp, ?_⟩
                have hdec : stackNodes (frame :: g :: r') =
                    stackNodes (g :: r') ++ [frame.node] := stackNodes_cons _ _
                rw [hdec, walkPairs_append_last _ hsn' frame.node] at heq
                rw [heq, coe_append]
                simp only [List.nil_append, List.reverse_singleton]
                have hwp1 : walkPairs [frame.node] = [] := rfl
                rw [hwp1]
                simp only [Multiset.coe_singleton, Multiset.coe_nil]
                abel
          | cons c0 cr =>
            obtain ⟨x, om, hom, heq⟩ := hinv.equation
            have hchead : (c0 :: cr).head? = some start :=
              hinv.circuitHead (by simp)
            have how_ne : (c0 :: cr).reverse ≠ [] := by simp
            have howh : (c0 :: cr).reverse.head how_ne = om := by
              have h1 : (c0 :: cr).reverse.head? = (c0 :: cr).getLast? :=
                List.head?_reverse _
              rw [hom, List.head?_eq_head how_ne] at h1
              exact Option.some_inj.1 h1
            have howl : (c0 :: cr).reverse.getLast how_ne = start := by
              have h1 : (c0 :: cr).reverse.getLast? = (c0 :: cr).head? :=
                List.getLast?_reverse _
              rw [hchead, List.getLast?_eq_getLast _ how_ne] at h1
              exact Option.some_inj.1 h1
            have hxt : x = frame.node :=
              mid_pop_pending hbal hinv.keysNodup hedges hsn_ne hsb hsn_last
                how_ne howh howl heq
            have hstuck' : ∀ v ∈ (c0 :: cr) ++ [frame.node],
                (alistGet rem v).getD [] = [] := by
              intro v hv
              rcases List.mem_append.1 hv with h | h
              · exact hinv.circuitStuck v h
              · simp only [List.mem_singleton] at h
                rw [h]; exact hedges
            have hchead' : ((c0 :: cr) ++ [frame.node]).head? = some start := by
              rw [List.head?_append_of_ne_nil _ (by simp)]
              exact hchead
            have hrev : ((c0 :: cr) ++ [frame.node]).reverse =
                frame.node :: (c0 :: cr).reverse := by simp
            cases rest with
            | nil =>
              have hts : frame.node = start := by
                simpa [stackNodes] using hsb
              refine ⟨hinv.keysNodup, hinv.entryKeysNodup, hstuck',
                (fun h => absurd rfl h), (fun _ => hchead'), ?_⟩
              show A = ↑(remPairs rem) +
                  ↑(walkPairs (((c0 :: cr) ++ [frame.node]).reverse)) ∧
                  (c0 :: cr) ++ [frame.node] ≠ [] ∧
                  ((c0 :: cr) ++ [frame.node]).getLast? = some start
              refine ⟨?_, by simp, by rw [List.getLast?_concat, hts]⟩
              rw [hrev, walkPairs_cons_ne _ _ how_ne, howh]
              have hsn0 : walkPairs (stackNodes
                  (frame :: ([] : List (HHFrame α)))) = [] := by
                simp [stackNodes, walkPairs]
              rw [hsn0, hxt] at heq
              rw [heq]
              rw [cons_coe_eq_add]
              simp only [Multiset.coe_nil]
              abel
            | cons g r' =>
              refine ⟨hinv.keysNodup, hinv.entryKeysNodup, hstuck', ?_,
                (fun _ => hchead'), ?_⟩
              · intro _
                rw [← stackNodes_head_cons frame g r']
                exact hsb
              · show ∃ x' om', ((c0 :: cr) ++ [frame.node]).getLast? = some om' ∧
                  A = ↑(remPairs rem) + ↑(walkPairs (stackNodes (g :: r'))) +
                    ↑(walkPairs (((c0 :: cr) ++ [frame.node]).reverse)) +
                    {(x', om')}
                have hsn' : stackNodes (g :: r') ≠ [] := stackNodes_ne_nil g r'
                refine ⟨(stackNodes (g :: r')).getLast hsn', frame.node,
                  List.getLast?_concat _, ?_⟩
                have hdec : stackNodes (frame :: g :: r') =
                    stackNodes (g :: r') ++ [frame.node] := stackNodes_cons _ _
                rw [hdec, walkPairs_append_last _ hsn' frame.node, hxt] at heq
                rw [hrev, walkPairs_cons_ne _ _ how_ne, howh]
                rw [heq, coe_append]
                simp only [cons_coe_eq_add, Multiset.coe_singleton,
                  Multiset.coe_nil]
                abel
        have hmeas : 2 * remArcCount rem + rest.length ≤ fuel := by omega
        exact ih _ hinv' hmeas
      | cons e0 es =>
        have hget : alistGet rem frame.node = some (e0 :: es) := by
          cases h : alistGet rem frame.node with
          | none => rw [h] at hedges; simp at hedges
          | some l =>
            rw [h] at hedges
            simp only [Option.getD_some] at hedges
            rw [hedges]
        set sel := hhSelect frame.incomingBearing p e0 es with hsel
        have hstep : hhLoop p (fuel + 1) ⟨rem, frame :: rest, circuit⟩ =
            hhLoop p fuel
              ⟨alistSet rem frame.node (removeFirstByKey sel.key (e0 :: es)),
                ⟨sel.dst, some sel.data.bearing⟩ :: frame :: rest, circuit⟩ := by
          simp only [hhLoop, hedges]
        rw [hstep]
        have hmem : sel ∈ e0 :: es := hhSelect_mem _ _ _ _
        have hentry : (frame.node, e0 :: es) ∈ rem := alistGet_mem hget
        have hknd2 : ((e0 :: es).map GraphEntry.key).Nodup :=
          hinv.entryKeysNodup _ hentry
        have hsn_ne : stackNodes (frame :: rest) ≠ [] := stackNodes_ne_nil frame rest
        have hrp : (↑(remPairs rem) : Multiset (ℕ × ℕ)) =
            ↑(remPairs (alistSet rem frame.node
              (removeFirstByKey sel.key (e0 :: es)))) +
              {(frame.node, sel.dst)} := by
          have h1 := remPairs_set rem frame.node (e0 :: es)
            (removeFirstByKey sel.key (e0 :: es)) hget
          rw [removeFirstByKey_pairs frame.node (e0 :: es) sel hmem hknd2,
            ← Multiset.singleton_add] at h1
          have h2 : ↑(remPairs (alistSet rem frame.node
              (removeFirstByKey sel.key (e0 :: es)))) +
              {(frame.node, sel.dst)} +
              (↑((removeFirstByKey sel.key (e0 :: es)).map
                (fun e' => (frame.node, e'.dst))) : Multiset (ℕ × ℕ)) =
              ↑(remPairs rem) +
              ↑((removeFirstByKey sel.key (e0 :: es)).map
                (fun e' => (frame.node, e'.dst))) := by
            rw [← h1]; abel
          exact (add_right_cancel h2).symm
        have hwp : walkPairs (stackNodes
            ((⟨sel.dst, some sel.data.bearing⟩ : HHFrame α) :: frame :: rest)) =
            walkPairs (stackNodes (frame :: rest)) ++ [(frame.node, sel.dst)] := by
          rw [stackNodes_cons, walkPairs_append_last _ hsn_ne, stackNodes_getLast]
        have hcount : remArcCount (alistSet rem frame.node
            (removeFirstByKey sel.key (e0 :: es))) + 1 = remArcCount rem := by
          have h1 := remArcCount_set rem frame.node (e0 :: es)
            (removeFirstByKey sel.key (e0 :: es)) hget
          have h2 := removeFirstByKey_length (e0 :: es) sel hmem hknd2
          simp only [List.length_cons] at h1 h2
          omega
        have hinv' : HHInv A start
            ⟨alistSet rem frame.node (removeFirstByKey sel.key (e0 :: es)),
              ⟨sel.dst, some sel.data.bearing⟩ :: frame :: rest, circuit⟩ := by
          refine ⟨alistSet_keys_nodup _ _ _ hinv.keysNodup, ?_, ?_, ?_,
            hinv.circuitHead, ?_⟩
          · intro q hq
            rcases alistSet_mem hq with h | h
            · rw [h]
              exact hknd2.sublist
                ((removeFirstByKey_keys_sublist (e0 :: es) sel.key).map _)
            · exact hinv.entryKeysNodup q h
          · intro v hv
            have hvne : v ≠ frame.node := by
              intro hc
              have hvs := hinv.circuitStuck v hv
              rw [hc, hedges] at hvs
              simp at hvs
            rw [alistGet_alistSet_ne _ _ _ _ hvne]
            exact hinv.circuitStuck v hv
          · intro _
            rw [stackNodes_head_cons]
            exact hinv.stackBottom (by simp)
          · cases circuit with
            | nil =>
              have heq : A = ↑(remPairs rem) +
                  ↑(walkPairs (stackNodes (frame :: rest))) := hinv.equation
              show A = ↑(remPairs (alistSet rem frame.node
                  (removeFirstByKey sel.key (e0 :: es)))) +
                  ↑(walkPairs (stackNodes
                    ((⟨sel.dst, some sel.data.bearing⟩ : HHFrame α) ::
                      frame :: rest)))
              rw [hwp, coe_append, heq, hrp]
              simp only [Multiset.coe_singleton]
              abel
            | cons c0 cr =>
              obtain ⟨x, om, hom, heq⟩ := hinv.equation
              refine ⟨x, om, hom, ?_⟩
              rw [hwp, coe_append, heq, hrp]
              simp only [Multiset.coe_singleton]
              abel
        have hmeas : 2 * remArcCount (alistSet rem frame.node
            (removeFirstByKey sel.key (e0 :: es))) +
            (⟨sel.dst, some sel.data.bearing⟩ :: frame :: rest :
              List (HHFrame α)).length ≤ fuel := by
          simp only [List.length_cons]
          omega
        exact ih _ hinv' hmeas

/-! ### From the loop invariant to the circuit theorems -/

theorem foldl_alistSet_acc {α : Type} :
    ∀ (l : List (ℕ × List (GraphEntry α))) (acc : List (ℕ × List (GraphEntry α))),
      ((acc.map Prod.fst ++ l.map Prod.fst).Nodup) →
      l.foldl (fun m p => alistSet m p.1 p.2) acc = acc ++ l := by
  intro l
  induction l with
  | nil => intro acc _; simp
  | cons q t ih =>
    intro acc h
    simp only [List.map_cons] at h
    have hq : q.1 ∉ acc.map Prod.fst := by
      rcases List.nodup_append.1 h with ⟨_, _, hdisj⟩
      intro hc
      exact hdisj hc (List.mem_cons_self _ _)
    have hset : alistSet acc q.1 q.2 = acc ++ [q] := by
      rw [alistSet_of_not_mem acc q.1 q.2 hq]
    simp only [List.foldl_cons, hset]
    rw [ih (acc ++ [q]) (by simpa using h)]
    simp

/-- Copying a duplicate-free adjacency map with `Map.set` is the
identity. -/
theorem foldl_alistSet_id {α : Type} (l : List (ℕ × List (GraphEntry α)))
    (h : (l.map Prod.fst).Nodup) :
    l.foldl (fun m p => alistSet m p.1 p.2) [] = l := by
  simpa using foldl_alistSet_acc l [] (by simpa using h)

/-- The adjacency map has no duplicate vertex keys, and no vertex's
out-list repeats an arc key (true of every graph this pipeline builds:
keys come from one increasing counter). -/
def WellKeyed {α : Type} (G : Graph α) : Prop :=
  (G.adjacency.map Prod.fst).Nodup ∧
    ∀ p ∈ G.adjacency, (p.2.map GraphEntry.key).Nodup

/-- Directed balance: in-degree equals out-degree at every vertex. -/
def DirBalanced {α : Type} (G : Graph α) : Prop :=
  ∀ v, outDegM ↑(graphArcs G) v = inDegM ↑(graphArcs G) v

/-- One-step arc relation of a graph. -/
def hasArc {α : Type} (G : Graph α) (u w : ℕ) : Prop :=
  (u, w) ∈ graphArcs G

/-- Every arc's source vertex is reachable from `start` along arcs. -/
def ArcsReachable {α : Type} (G : Graph α) (start : ℕ) : Prop :=
  ∀ q ∈ graphArcs G, Relation.ReflTransGen (hasArc G) start q.1

/-- Master theorem: on a well-keyed, balanced, reachable graph the
turn-preference Hierholzer loop outputs a closed Eulerian circuit. -/
theorem hierholzer_master {α : Type} [LinearOrderedField α] [FloorRing α]
    (G : Graph α) (start : ℕ) (p : TurnPenaltyConfig α)
    (hk : WellKeyed G) (hb : DirBalanced G) (hr : ArcsReachable G start) :
    (↑(walkPairs (hierholzerWithTurnPreference G start p)) :
        Multiset (ℕ × ℕ)) = ↑(graphArcs G) ∧
      hierholzerWithTurnPreference G start p ≠ [] ∧
      (hierholzerWithTurnPreference G start p).head? = some start ∧
      (hierholzerWithTurnPreference G start p).getLast? = some start := by
  have hcopy : G.adjacency.foldl (fun m p => alistSet m p.1 p.2) [] =
      G.adjacency := foldl_alistSet_id _ hk.1
  have hunfold : hierholzerWithTurnPreference G start p =
      (hhLoop p (2 * remArcCount G.adjacency + 1)
        ⟨G.adjacency, [⟨start, none⟩], []⟩).circuit.reverse := by
    simp only [hierholzerWithTurnPreference, hcopy]
  have hinv0 : HHInv (↑(graphArcs G)) start
      (⟨G.adjacency, [⟨start, none⟩], []⟩ : HHState α) := by
    refine ⟨hk.1, hk.2, by simp, ?_, by simp, ?_⟩
    · intro _
      simp [stackNodes]
    · show (↑(graphArcs G) : Multiset (ℕ × ℕ)) =
        ↑(remPairs G.adjacency) +
          ↑(walkPairs (stackNodes ([⟨start, none⟩] : List (HHFrame α))))
      have : walkPairs (stackNodes ([⟨start, none⟩] : List (HHFrame α))) = [] := by
        simp [stackNodes, walkPairs]
      rw [this]
      simp [graphArcs]
  obtain ⟨hinvF, hstackF⟩ := hhLoop_spec p (↑(graphArcs G)) start hb
    (2 * remArcCount G.adjacency + 1) ⟨G.adjacency, [⟨start, none⟩], []⟩
    hinv0 (by simp)
  rcases hF : hhLoop p (2 * remArcCount G.adjacency + 1)
      (⟨G.adjacency, [⟨start, none⟩], []⟩ : HHState α) with ⟨remF, stackF, circF⟩
  rw [hF] at hinvF hstackF
  simp only at hstackF
  subst hstackF
  have heqF : (↑(graphArcs G) : Multiset (ℕ × ℕ)) =
      ↑(remPairs remF) + ↑(walkPairs circF.reverse) ∧ circF ≠ [] ∧
      circF.getLast? = some start := hinvF.equation
  obtain ⟨heqA, hcne, hclast⟩ := heqF
  have hchead : circF.head? = some start := hinvF.circuitHead hcne
  have hstart_mem : start ∈ circF := by
    cases circF with
    | nil => exact absurd rfl hcne
    | cons c0 cr =>
      simp only [List.head?_cons, Option.some_inj] at hchead
      rw [← hchead]
      exact List.mem_cons_self _ _
  have hreach_mem : ∀ v, Relation.ReflTransGen (hasArc G) start v → v ∈ circF := by
    intro v h
    induction h with
    | refl => exact hstart_mem
    | tail hab hbc ih =>
      rename_i b c
      have hstuckb := hinvF.circuitStuck b ih
      have hbc' : (b, c) ∈ graphArcs G := hbc
      have hmemA : (b, c) ∈ (↑(graphArcs G) : Multiset (ℕ × ℕ)) := by
        simpa using hbc'
      rw [heqA] at hmemA
      rcases Multiset.mem_add.1 hmemA with hm | hm
      · exfalso
        have hdeg0 : outDegM ↑(remPairs remF) b = 0 :=
          stuck_outDeg_zero remF b hinvF.keysNodup hstuckb
        have : 0 < outDegM ↑(remPairs remF) b := by
          rw [outDegM, Multiset.countP_pos]
          exact ⟨(b, c), hm, rfl⟩
        omega
      · have : c ∈ circF.reverse :=
          walkPairs_mem_right (Multiset.mem_coe.1 hm)
        simpa using this
  have hrem0 : remPairs remF = [] := by
    cases hrp : remPairs remF with
    | nil => rfl
    | cons q t =>
      exfalso
      have hqA : q ∈ (↑(graphArcs G) : Multiset (ℕ × ℕ)) := by
        rw [heqA]
        refine Multiset.mem_add.2 (Or.inl ?_)
        rw [hrp]
        simp
      have hqG : q ∈ graphArcs G := Multiset.mem_coe.1 hqA
      have hreach := hr q hqG
      have hmemF := hreach_mem q.1 hreach
      have hstuckq := hinvF.circuitStuck q.1 hmemF
      have hdeg0 : outDegM ↑(remPairs remF) q.1 = 0 :=
        stuck_outDeg_zero remF q.1 hinvF.keysNodup hstuckq
      have : 0 < outDegM ↑(remPairs remF) q.1 := by
        rw [outDegM, Multiset.countP_pos]
        exact ⟨q, by rw [hrp]; simp, rfl⟩
      omega
  have hout : hierholzerWithTurnPreference G start p = circF.reverse := by
    rw [hunfold, hF]
  refine ⟨?_, ?_, ?_, ?_⟩
  · rw [hout, heqA, hrem0]
    simp
  · rw [hout]
    simpa using hcne
  · rw [hout, List.head?_reverse]
    exact hclast
  · rw [hout, List.getLast?_reverse]
    exact hchead

/-! ## Claims C1 and C2 — the circuit builder -/

/-- A penalty configuration over `ℚ` matching the pipeline default. -/
def qPenalties : TurnPenaltyConfig ℚ := ⟨0, 10, 50, 500⟩

/-- A graph with a single one-way arc 1 → 2. -/
def oneArcGraph : Graph ℚ :=
  ⟨[(1, [⟨2, 0, ⟨1, 2, 1, 90, 7, "residential", "a"⟩⟩])],
    [(1, ⟨1, 0, 0⟩), (2, ⟨2, 0, 1⟩)], 1⟩

/-- C1 counterexample: on the single one-way arc 1 → 2 with start
vertex 1 the circuit builder returns [1, 2], whose last entry is not
the start vertex, so the claim fails for this input graph. -/
theorem C1_counterexample_one_way_arc :
    ¬ ((hierholzerWithTurnPreference oneArcGraph 1 qPenalties).length =
          graphArcCount oneArcGraph + 1 ∧
        (hierholzerWithTurnPreference oneArcGraph 1 qPenalties).head? =
          some 1 ∧
        (hierholzerWithTurnPreference oneArcGraph 1 qPenalties).getLast? =
          some 1) := by
  decide

/-- C1 (amended): for every graph with duplicate-free keys whose
vertices all have in-degree equal to out-degree and whose arc sources
are reachable from the start vertex, the vertex sequence returned by
`hierholzerWithTurnPreference` has length `arc count + 1` and its first
and last entries both equal the start vertex. -/
theorem C1_circuit_length_and_endpoints {α : Type} [LinearOrderedField α]
    [FloorRing α] (G : Graph α) (start : ℕ) (p : TurnPenaltyConfig α)
    (hk : WellKeyed G) (hb : DirBalanced G) (hr : ArcsReachable G start) :
    (hierholzerWithTurnPreference G start p).length = graphArcCount G + 1 ∧
      (hierholzerWithTurnPreference G start p).head? = some start ∧
      (hierholzerWithTurnPreference G start p).getLast? = some start := by
  obtain ⟨hcover, hne, hhead, hlast⟩ := hierholzer_master G start p hk hb hr
  refine ⟨?_, hhead, hlast⟩
  have hlen := congrArg Multiset.card hcover
  simp only [Multiset.coe_card] at hlen
  rw [walkPairs_length _ hne] at hlen
  have h2 : (graphArcs G).length = graphArcCount G := remPairs_length G.adjacency
  have h3 : 1 ≤ (hierholzerWithTurnPreference G start p).length :=
    List.length_pos.2 hne
  omega

/-- A graph with one vertex and no arcs. -/
def noArcGraph : Graph ℚ := ⟨[], [(1, ⟨1, 0, 0⟩)], 0⟩

/-- C1 witness: the amended theorem applied to the one-vertex graph. -/
theorem C1_witness :
    WellKeyed noArcGraph ∧ DirBalanced noArcGraph ∧
      ArcsReachable noArcGraph 1 ∧
      ((hierholzerWithTurnPreference noArcGraph 1 qPenalties).length =
          graphArcCount noArcGraph + 1 ∧
        (hierholzerWithTurnPreference noArcGraph 1 qPenalties).head? =
          some 1 ∧
        (hierholzerWithTurnPreference noArcGraph 1 qPenalties).getLast? =
          some 1) := by
  have hk : WellKeyed noArcGraph := by
    constructor <;> simp [noArcGraph]
  have hb : DirBalanced noArcGraph := by
    intro v
    simp [DirBalanced, graphArcs, remPairs, noArcGraph, outDegM, inDegM]
  have hr : ArcsReachable noArcGraph 1 := by
    intro q hq
    simp [graphArcs, remPairs, noArcGraph] at hq
  exact ⟨hk, hb, hr, C1_circuit_length_and_endpoints noArcGraph 1 qPenalties hk hb hr⟩

/-- A graph with two parallel arcs 1 → 2: every vertex has even
out-degree (the spec's balance notion), yet no Eulerian circuit
exists. -/
def twoParallelGraph : Graph ℚ :=
  ⟨[(1, [⟨2, 0, ⟨1, 2, 1, 90, 7, "residential", "a"⟩⟩,
        ⟨2, 1, ⟨1, 2, 1, 90, 7, "residential", "a"⟩⟩])],
    [(1, ⟨1, 0, 0⟩), (2, ⟨2, 0, 1⟩)], 2⟩

/-- C2 counterexample: `twoParallelGraph` is balanced in the spec's
sense (the repo's own `getOddDegreeNodes` reports no odd vertex), yet
replaying the circuit does not consume every arc exactly once: the
circuit is [1, 2, 2] and its hop (2, 2) matches no arc while the second
1 → 2 arc is never replayed. -/
theorem C2_counterexample_parallel_arcs :
    getOddDegreeNodes twoParallelGraph = [] ∧
      (↑(walkPairs (hierholzerWithTurnPreference twoParallelGraph 1 qPenalties)) :
          Multiset (ℕ × ℕ)) ≠ ↑(graphArcs twoParallelGraph) := by
  decide

/-- C2 (amended): for every graph with duplicate-free keys that is
balanced in the directed sense (in-degree = out-degree at every vertex)
and whose arc sources are reachable from the start vertex, the multiset
of consecutive vertex pairs of the circuit equals the multiset of arcs:
every arc is consumed exactly once, none skipped, none doubled. -/
theorem C2_circuit_consumes_each_arc_once {α : Type} [LinearOrderedField α]
    [FloorRing α] (G : Graph α) (start : ℕ) (p : TurnPenaltyConfig α)
    (hk : WellKeyed G) (hb : DirBalanced G) (hr : ArcsReachable G start) :
    (↑(walkPairs (hierholzerWithTurnPreference G start p)) :
        Multiset (ℕ × ℕ)) = ↑(graphArcs G) :=
  (hierholzer_master G start p hk hb hr).1

/-- A one-vertex graph with a self-loop arc. -/
def selfLoopGraph : Graph ℚ :=
  ⟨[(1, [⟨1, 0, ⟨1, 1, 1, 0, 3, "service", "s"⟩⟩])], [(1, ⟨1, 0, 0⟩)], 1⟩

/-- C2 witness: the amended theorem applied to the self-loop graph. -/
theorem C2_witness :
    WellKeyed selfLoopGraph ∧ DirBalanced selfLoopGraph ∧
      ArcsReachable selfLoopGraph 1 ∧
      (↑(walkPairs (hierholzerWithTurnPreference selfLoopGraph 1 qPenalties)) :
          Multiset (ℕ × ℕ)) = ↑(graphArcs selfLoopGraph) := by
  have hk : WellKeyed selfLoopGraph := by
    constructor
    · simp [selfLoopGraph]
    · intro q hq
      simp only [selfLoopGraph, List.mem_singleton] at hq
      rw [hq]
      simp
  have harcs : graphArcs selfLoopGraph = [(1, 1)] := rfl
  have hb : DirBalanced selfLoopGraph := by
    intro v
    show outDegM ↑(graphArcs selfLoopGraph) v = inDegM ↑(graphArcs selfLoopGraph) v
    rw [harcs]
    have hsing : (↑([(1, 1)] : List (ℕ × ℕ)) : Multiset (ℕ × ℕ)) = {(1, 1)} := rfl
    rw [hsing, outDegM_singleton, inDegM_singleton]
  have hr : ArcsReachable selfLoopGraph 1 := by
    intro q hq
    rw [harcs] at hq
    simp only [List.mem_singleton] at hq
    rw [hq]
  exact ⟨hk, hb, hr, C2_circuit_consumes_each_arc_once selfLoopGraph 1 qPenalties hk hb hr⟩

/-! ## Claim C3 — the Degree Balancer

Evaluation of the balancer pipeline on a mirrored path graph
1 — 2 — 3.  Two defects surface: `dijkstra`'s selection loop reads
`distances.get(node) || Infinity`, and since `0` is falsy the start
vertex's zero distance is coerced to `Infinity`, so no vertex is ever
selected, every pairwise distance comes back `Infinity`
(`⊤ : WithTop ℚ`), and `minimumWeightMatching` pairs nothing; moreover
`createMultigraph` would duplicate each path arc in one direction only,
which flips interior-vertex parity and leaves the far endpoint odd. -/

/-- A mirrored path graph 1 — 2 — 3 with unit arc lengths. -/
def pathGraph : Graph ℚ :=
  ⟨[(1, [⟨2, 0, ⟨1, 2, 1, 90, 5, "residential", "p"⟩⟩]),
    (2, [⟨1, 1, ⟨2, 1, 1, 270, 5, "residential", "p"⟩⟩,
         ⟨3, 2, ⟨2, 3, 1, 90, 5, "residential", "p"⟩⟩]),
    (3, [⟨2, 3, ⟨3, 2, 1, 270, 5, "residential", "p"⟩⟩])],
    [(1, ⟨1, 0, 0⟩), (2, ⟨2, 0, 1⟩), (3, ⟨3, 0, 2⟩)], 4⟩

/-- C3: the path graph has odd-degree vertices 1 and 3; `dijkstra`
reports their distance as `Infinity` although a path exists, the greedy
matching therefore pairs nothing, and the multigraph produced by the
Degree Balancer still has odd-degree vertices 1 and 3 — its vertices do
not all have even degree, contradicting the claim. -/
theorem C3_balancer_leaves_odd_degrees :
    getOddDegreeNodes pathGraph = [1, 3] ∧
      (dijkstra pathGraph 1 3).distance = ⊤ ∧
      minimumWeightMatching pathGraph (getOddDegreeNodes pathGraph) = [] ∧
      getOddDegreeNodes (createMultigraph pathGraph
        (minimumWeightMatching pathGraph (getOddDegreeNodes pathGraph))) =
        [1, 3] := by
  decide

/-! ## Claim C4 — no balancing in the turn-preference pipeline -/

/-- A two-vertex demo network: one residential segment from (0,0) to
(0,90). -/
def demoNodes : List (ℕ × OSMNode ℝ) := [(1, ⟨1, 0, 0⟩), (2, ⟨2, 0, 90⟩)]

/-- The single demo segment. -/
def demoWays : List OSMWay := [⟨10, [1, 2], [("highway", "residential")]⟩]

/-- C4: in the turn-preference pipeline the graph handed to the circuit
builder is exactly `findLargestSCC`'s largest-component subgraph,
unchanged — `processRoute` runs no odd-degree pairing and inserts no
duplicate arcs between connectivity reduction and circuit
construction — and on the demo network that subgraph still contains
odd-degree vertices (both of its vertices, as reported by the repo's
own `getOddDegreeNodes`). -/
theorem C4_no_balancing_between_scc_and_circuit :
    (∀ (nodes : List (ℕ × OSMNode ℝ)) (ways : List OSMWay)
      (fn : String) (ign : Bool) (sp : Option StartPoint)
      (pen : Option (TurnPenaltyConfig ℝ)) (ck : Clock) (f : ℝ → String),
      processRoute nodes ways fn ign sp pen ck f =
        (if (filterWays ways).included = [] then
          Except.error "No valid road segments found in the OSM file"
        else if (findLargestSCC (buildGraph nodes (filterWays ways).included
            ign)).subgraph.nodes = [] then
          Except.error "No connected road network found"
        else
          Except.ok (routeResultOf
            (findLargestSCC (buildGraph nodes (filterWays ways).included
              ign)).subgraph
            (findLargestSCC (buildGraph nodes (filterWays ways).included
              ign)).componentCount
            (filterWays ways).included.length (filterWays ways).excluded.length
            fn sp (pen.getD defaultPenalties) ck f))) ∧
      getOddDegreeNodes (findLargestSCC (buildGraph demoNodes
        (filterWays demoWays).included false)).subgraph = [1, 2] := by
  constructor
  · intro nodes ways fn ign sp pen ck f
    rfl
  · decide

/-! ## Claim C7 — fatal cases of `processRoute` -/

/-- C7: `processRoute` fails with the "no valid road segments" error
exactly when the filtered segment set is empty, fails with the "no
connected road network" error exactly when the reduced network has no
vertices, and in every other case — unregistered vertex ids included,
which `buildGraph` silently skips — returns a result without raising. -/
theorem C7_processRoute_error_cases :
    ∀ (nodes : List (ℕ × OSMNode ℝ)) (ways : List OSMWay) (fn : String)
      (ign : Bool) (sp : Option StartPoint)
      (pen : Option (TurnPenaltyConfig ℝ)) (ck : Clock) (f : ℝ → String),
      ((filterWays ways).included = [] →
        processRoute nodes ways fn ign sp pen ck f =
          Except.error "No valid road segments found in the OSM file") ∧
      ((filterWays ways).included ≠ [] →
        (findLargestSCC (buildGraph nodes (filterWays ways).included
          ign)).subgraph.nodes = [] →
        processRoute nodes ways fn ign sp pen ck f =
          Except.error "No connected road network found") ∧
      ((filterWays ways).included ≠ [] →
        (findLargestSCC (buildGraph nodes (filterWays ways).included
          ign)).subgraph.nodes ≠ [] →
        ∃ r, processRoute nodes ways fn ign sp pen ck f = Except.ok r) := by
  intro nodes ways fn ign sp pen ck f
  refine ⟨?_, ?_, ?_⟩
  · intro h
    simp [processRoute, h]
  · intro h1 h2
    simp [processRoute, h1, h2]
  · intro h1 h2
    have hok : processRoute nodes ways fn ign sp pen ck f =
        Except.ok (routeResultOf
          (findLargestSCC (buildGraph nodes (filterWays ways).included
            ign)).subgraph
          (findLargestSCC (buildGraph nodes (filterWays ways).included
            ign)).componentCount
          (filterWays ways).included.length (filterWays ways).excluded.length
          fn sp (pen.getD defaultPenalties) ck f) := by
      simp [processRoute, h1, h2]
    exact ⟨_, hok⟩

/-- C7 witness: on the demo network neither fatal case fires — the way
list is nonempty after filtering and the reduced network is
nonempty — and the amended hypotheses of the no-raise branch are
discharged concretely: a result is returned. -/
theorem C7_witness :
    (filterWays demoWays).included ≠ [] ∧
      (findLargestSCC (buildGraph demoNodes (filterWays demoWays).included
        false)).subgraph.nodes ≠ [] ∧
      ∃ r, processRoute demoNodes demoWays "demo.osm" false none none
        ⟨"t", "t"⟩ (fun _ => "x") = Except.ok r :=
  ⟨by decide, by decide,
    (C7_processRoute_error_cases demoNodes demoWays "demo.osm" false none none
      ⟨"t", "t"⟩ (fun _ => "x")).2.2 (by decide) (by decide)⟩

/-! ## Claim C9 — determinism of the pipeline

`processRoute` is a pure function of its typed inputs plus the ambient
wall clock that `generateGPX` (and the log lines) read via
`new Date()`; the clock is the explicit `Clock` argument here.  The
coordinate sequence and the statistics record are clock-independent,
but the GPX content embeds the invocation time, so two invocations at
different times produce different GPX bytes. -/

/-- C9 (amended): two invocations of `processRoute` with identical OSM
content, filename, one-way flag, start point and penalty configuration
produce the same coordinate sequence and the same statistics record;
the full results — including the GPX track content, which embeds the
generation timestamp — coincide whenever the invocations read the same
clock. -/
theorem C9_deterministic_modulo_clock :
    ∀ (nodes : List (ℕ × OSMNode ℝ)) (ways : List OSMWay) (fn : String)
      (ign : Bool) (sp : Option StartPoint)
      (pen : Option (TurnPenaltyConfig ℝ)) (ck1 ck2 : Clock) (f : ℝ → String),
      (processRoute nodes ways fn ign sp pen ck1 f).map
          RouteResult.coordinates =
        (processRoute nodes ways fn ign sp pen ck2 f).map
          RouteResult.coordinates ∧
      (processRoute nodes ways fn ign sp pen ck1 f).map RouteResult.stats =
        (processRoute nodes ways fn ign sp pen ck2 f).map RouteResult.stats ∧
      (ck1 = ck2 →
        processRoute nodes ways fn ign sp pen ck1 f =
          processRoute nodes ways fn ign sp pen ck2 f) := by
  intro nodes ways fn ign sp pen ck1 ck2 f
  refine ⟨?_, ?_, fun h => by rw [h]⟩ <;>
  · by_cases h1 : (filterWays ways).included = []
    · simp [processRoute, h1]
    · by_cases h2 : (findLargestSCC (buildGraph nodes
          (filterWays ways).included ign)).subgraph.nodes = []
      · simp [processRoute, h1, h2]
      · simp [processRoute, h1, h2, routeResultOf, Except.map]

/-- C9 witness: the amended theorem applied at a concrete input, with
the equal-clock hypothesis discharged. -/
theorem C9_witness :
    (⟨"t", "t"⟩ : Clock) = (⟨"t", "t"⟩ : Clock) ∧
      ((processRoute demoNodes demoWays "demo.osm" false none none
          ⟨"t", "t"⟩ (fun _ => "x")).map RouteResult.coordinates =
        (processRoute demoNodes demoWays "demo.osm" false none none
          ⟨"t", "t"⟩ (fun _ => "x")).map RouteResult.coordinates ∧
      (processRoute demoNodes demoWays "demo.osm" false none none
          ⟨"t", "t"⟩ (fun _ => "x")).map RouteResult.stats =
        (processRoute demoNodes demoWays "demo.osm" false none none
          ⟨"t", "t"⟩ (fun _ => "x")).map RouteResult.stats ∧
      ((⟨"t", "t"⟩ : Clock) = (⟨"t", "t"⟩ : Clock) →
        processRoute demoNodes demoWays "demo.osm" false none none
          ⟨"t", "t"⟩ (fun _ => "x") =
        processRoute demoNodes demoWays "demo.osm" false none none
          ⟨"t", "t"⟩ (fun _ => "x"))) :=
  ⟨rfl, C9_deterministic_modulo_clock demoNodes demoWays "demo.osm" false
    none none ⟨"t", "t"⟩ ⟨"t", "t"⟩ (fun _ => "x")⟩

/-- A one-vertex network whose single segment is a self-loop; it
survives connectivity reduction, so the pipeline succeeds. -/
def loopNodes : List (ℕ × OSMNode ℝ) := [(1, ⟨1, 0, 0⟩)]

/-- The self-loop segment. -/
def loopWays : List OSMWay := [⟨10, [1, 1], [("highway", "residential")]⟩]

/-- C9 counterexample: identical OSM content, filename, one-way flag,
start point and penalties, but two invocation times one second apart:
the GPX track file contents differ (the `<time>` metadata embeds the
clock), so the two results are not identical as the claim requires. -/
theorem C9_counterexample_clock_in_gpx :
    processRoute loopNodes loopWays "d" false none none
        ⟨"2026-01-01T00:00:00.000Z", "L"⟩ (fun _ => "x") ≠
      processRoute loopNodes loopWays "d" false none none
        ⟨"2026-01-01T00:00:01.000Z", "L"⟩ (fun _ => "x") := by
  intro h
  have hgpx : (processRoute loopNodes loopWays "d" false none none
        ⟨"2026-01-01T00:00:00.000Z", "L"⟩ (fun _ => "x")).toOption.map
        RouteResult.gpxContent ≠
      (processRoute loopNodes loopWays "d" false none none
        ⟨"2026-01-01T00:00:01.000Z", "L"⟩ (fun _ => "x")).toOption.map
        RouteResult.gpxContent := by
    set_option maxRecDepth 10000 in decide
  exact hgpx (by rw [h])

/-! ## Claim C6 — `buildGraph` per-pair emissions -/

theorem alistGet_alistPush {β : Type} :
    ∀ (l : List (ℕ × List β)) (k' : ℕ) (e : β) (k : ℕ),
      alistGet (alistPush l k' e) k =
        if k' = k then some ((alistGet l k').getD [] ++ [e])
        else alistGet l k := by
  intro l
  induction l with
  | nil =>
    intro k' e k
    by_cases h : k' = k <;> simp [alistPush, alistGet, h]
  | cons q t ih =>
    obtain ⟨a, es⟩ := q
    intro k' e k
    by_cases ha : a = k'
    · subst ha
      simp only [alistPush, if_pos rfl, alistGet]
      by_cases hk : a = k
      · simp [hk]
      · simp [hk, fun h => hk (h : a = k)]
    · have hk'a : ¬ k' = a := fun h => ha h.symm
      by_cases hk : a = k
      · subst hk
        simp [alistPush, if_neg ha, alistGet, hk'a]
      · simp only [alistPush, if_neg ha, alistGet, if_neg hk, ih k' e k]

theorem mem_alistPush_self {β : Type} (l : List (ℕ × List β)) (k : ℕ) (e : β) :
    e ∈ (alistGet (alistPush l k e) k).getD [] := by
  rw [alistGet_alistPush]
  simp

theorem mem_alistPush_mono {β : Type} (l : List (ℕ × List β)) (k' : ℕ) (e' : β)
    (k : ℕ) (x : β) (hx : x ∈ (alistGet l k).getD []) :
    x ∈ (alistGet (alistPush l k' e') k).getD [] := by
  rw [alistGet_alistPush]
  by_cases h : k' = k
  · subst h
    simp only [if_pos rfl, Option.getD_some]
    exact List.mem_append.2 (Or.inl hx)
  · simp only [if_neg h]
    exact hx

theorem buildPairStep_adj_mono (nodes : List (ℕ × OSMNode ℝ)) (w : OSMWay)
    (ign : Bool) (st : BGState) (uv : ℕ × ℕ) (n : ℕ) (x : GraphEntry ℝ)
    (hx : x ∈ (alistGet st.adjacency n).getD []) :
    x ∈ (alistGet (buildPairStep nodes w ign st uv).adjacency n).getD [] := by
  rcases h1 : alistGet nodes uv.1 with _ | nu <;>
    rcases h2 : alistGet nodes uv.2 with _ | nv <;>
    simp only [buildPairStep, h1, h2]
  · exact hx
  · exact hx
  · exact hx
  · split
    · exact mem_alistPush_mono _ _ _ _ _ (mem_alistPush_mono _ _ _ _ _ hx)
    · exact mem_alistPush_mono _ _ _ _ _ hx

theorem foldl_pairs_adj_mono (nodes : List (ℕ × OSMNode ℝ)) (w : OSMWay)
    (ign : Bool) :
    ∀ (pairs : List (ℕ × ℕ)) (st : BGState) (n : ℕ) (x : GraphEntry ℝ),
      x ∈ (alistGet st.adjacency n).getD [] →
      x ∈ (alistGet ((pairs.foldl (buildPairStep nodes w ign) st)).adjacency
        n).getD [] := by
  intro pairs
  induction pairs with
  | nil => intro st n x hx; exact hx
  | cons q rest ih =>
    intro st n x hx
    exact ih _ n x (buildPairStep_adj_mono nodes w ign st q n x hx)

theorem foldl_ways_adj_mono (nodes : List (ℕ × OSMNode ℝ)) (ign : Bool) :
    ∀ (ways : List OSMWay) (st : BGState) (n : ℕ) (x : GraphEntry ℝ),
      x ∈ (alistGet st.adjacency n).getD [] →
      x ∈ (alistGet ((ways.foldl (fun st' w => (consecPairs w.nodes).foldl
        (buildPairStep nodes w ign) st') st)).adjacency n).getD [] := by
  intro ways
  induction ways with
  | nil => intro st n x hx; exact hx
  | cons w rest ih =>
    intro st n x hx
    exact ih _ n x (foldl_pairs_adj_mono nodes w ign _ st n x hx)

/-- The forward arc `buildGraph` constructs for a registered pair
`(u, v)` of `way` (the loop body's `edgeData`). -/
noncomputable def fwdEdgeOf (w : OSMWay) (u v : ℕ) (nu nv : OSMNode ℝ) :
    GraphEdge ℝ :=
  ⟨u, v, haversineDistance nu.lat nu.lon nv.lat nv.lon,
    calculateBearing nu.lat nu.lon nv.lat nv.lon, w.id,
    if tagGet w "highway" = "" then "unknown" else tagGet w "highway",
    if tagGet w "name" = "" then "unnamed" else tagGet w "name"⟩

/-- The reverse arc (`reverseData`): endpoints swapped, bearing rotated
by 180°, length and provenance kept. -/
noncomputable def revEdgeOf (w : OSMWay) (u v : ℕ) (nu nv : OSMNode ℝ) :
    GraphEdge ℝ :=
  { fwdEdgeOf w u v nu nv with
    src := v
    dst := u
    bearing := jsMod ((fwdEdgeOf w u v nu nv).bearing + 180) 360 }

/-- The loop body of `buildGraph`, characterised: for a registered pair
it always emits the forward arc, and emits the reverse arc exactly when
the way is not one-way or one-ways are ignored. -/
theorem buildPairStep_characterisation (nodes : List (ℕ × OSMNode ℝ))
    (w : OSMWay) (ign : Bool) (u v : ℕ) (nu nv : OSMNode ℝ)
    (hu : alistGet nodes u = some nu) (hv : alistGet nodes v = some nv)
    (st : BGState) :
    buildPairStep nodes w ign st (u, v) =
      if ign = true ∨ ¬ tagGet w "oneway" = "yes" then
        ⟨alistPush (alistPush st.adjacency u
            ⟨v, st.edgeKey, fwdEdgeOf w u v nu nv⟩) v
            ⟨u, st.edgeKey + 1, revEdgeOf w u v nu nv⟩,
          alistSet (alistSet st.nodesAcc u nu) v nv, st.edgeKey + 2⟩
      else
        ⟨alistPush st.adjacency u ⟨v, st.edgeKey, fwdEdgeOf w u v nu nv⟩,
          alistSet (alistSet st.nodesAcc u nu) v nv, st.edgeKey + 1⟩ := by
  simp only [buildPairStep, hu, hv, fwdEdgeOf, revEdgeOf]

theorem foldl_pairs_emits_fwd (nodes : List (ℕ × OSMNode ℝ)) (w : OSMWay)
    (ign : Bool) (u v : ℕ) (nu nv : OSMNode ℝ)
    (hu : alistGet nodes u = some nu) (hv : alistGet nodes v = some nv) :
    ∀ (pairs : List (ℕ × ℕ)) (st : BGState), (u, v) ∈ pairs →
      ∃ k, (⟨v, k, fwdEdgeOf w u v nu nv⟩ : GraphEntry ℝ) ∈
        (alistGet ((pairs.foldl (buildPairStep nodes w ign) st)).adjacency
          u).getD [] := by
  intro pairs
  induction pairs with
  | nil => intro st h; simp at h
  | cons q rest ih =>
    intro st h
    rcases List.mem_cons.1 h with h | h
    · subst h
      refine ⟨st.edgeKey, ?_⟩
      rw [List.foldl_cons]
      apply foldl_pairs_adj_mono
      rw [buildPairStep_characterisation nodes w ign u v nu nv hu hv st]
      split
      · exact mem_alistPush_mono _ _ _ _ _ (mem_alistPush_self _ _ _)
      · exact mem_alistPush_self _ _ _
    · exact ih _ h

theorem foldl_pairs_emits_rev (nodes : List (ℕ × OSMNode ℝ)) (w : OSMWay)
    (ign : Bool) (u v : ℕ) (nu nv : OSMNode ℝ)
    (hu : alistGet nodes u = some nu) (hv : alistGet nodes v = some nv)
    (hc : ign = true ∨ ¬ tagGet w "oneway" = "yes") :
    ∀ (pairs : List (ℕ × ℕ)) (st : BGState), (u, v) ∈ pairs →
      ∃ k, (⟨u, k, revEdgeOf w u v nu nv⟩ : GraphEntry ℝ) ∈
        (alistGet ((pairs.foldl (buildPairStep nodes w ign) st)).adjacency
          v).getD [] := by
  intro pairs
  induction pairs with
  | nil => intro st h; simp at h
  | cons q rest ih =>
    intro st h
    rcases List.mem_cons.1 h with h | h
    · subst h
      refine ⟨st.edgeKey + 1, ?_⟩
      rw [List.foldl_cons]
      apply foldl_pairs_adj_mono
      rw [buildPairStep_characterisation nodes w ign u v nu nv hu hv st]
      split
      · exact mem_alistPush_self _ _ _
      · next hn => exact absurd hc hn
    · exact ih _ h

theorem foldl_ways_emits_fwd (nodes : List (ℕ × OSMNode ℝ)) (ign : Bool)
    (w : OSMWay) (u v : ℕ) (nu nv : OSMNode ℝ)
    (hu : alistGet nodes u = some nu) (hv : alistGet nodes v = some nv) :
    ∀ (ways : List OSMWay) (st : BGState), w ∈ ways →
      (u, v) ∈ consecPairs w.nodes →
      ∃ k, (⟨v, k, fwdEdgeOf w u v nu nv⟩ : GraphEntry ℝ) ∈
        (alistGet ((ways.foldl (fun st' w' => (consecPairs w'.nodes).foldl
          (buildPairStep nodes w' ign) st') st)).adjacency u).getD [] := by
  intro ways
  induction ways with
  | nil => intro st hmem _; simp at hmem
  | cons w' rest ih =>
    intro st hmem hp
    rw [List.foldl_cons]
    rcases List.mem_cons.1 hmem with hmem | hmem
    · subst hmem
      obtain ⟨k, hk⟩ :=
        foldl_pairs_emits_fwd nodes w ign u v nu nv hu hv
          (consecPairs w.nodes) st hp
      exact ⟨k, foldl_ways_adj_mono nodes ign rest _ u _ hk⟩
    · exact ih _ hmem hp

theorem foldl_ways_emits_rev (nodes : List (ℕ × OSMNode ℝ)) (ign : Bool)
    (w : OSMWay) (u v : ℕ) (nu nv : OSMNode ℝ)
    (hu : alistGet nodes u = some nu) (hv : alistGet nodes v = some nv)
    (hc : ign = true ∨ ¬ tagGet w "oneway" = "yes") :
    ∀ (ways : List OSMWay) (st : BGState), w ∈ ways →
      (u, v) ∈ consecPairs w.nodes →
      ∃ k, (⟨u, k, revEdgeOf w u v nu nv⟩ : GraphEntry ℝ) ∈
        (alistGet ((ways.foldl (fun st' w' => (consecPairs w'.nodes).foldl
          (buildPairStep nodes w' ign) st') st)).adjacency v).getD [] := by
  intro ways
  induction ways with
  | nil => intro st hmem _; simp at hmem
  | cons w' rest ih =>
    intro st hmem hp
    rw [List.foldl_cons]
    rcases List.mem_cons.1 hmem with hmem | hmem
    · subst hmem
      obtain ⟨k, hk⟩ :=
        foldl_pairs_emits_rev nodes w ign u v nu nv hu hv hc
          (consecPairs w.nodes) st hp
      exact ⟨k, foldl_ways_adj_mono nodes ign rest _ v _ hk⟩
    · exact ih _ hmem hp

/-- C6: for every consecutive pair `(u, v)` of a way whose endpoints are
both registered in the vertex table, (a) the reverse arc swaps the
endpoints, rotates the bearing by 180° modulo 360, and keeps length,
way id, highway class and name; (b) the loop body of `buildGraph`
always emits the forward arc and emits the reverse arc if and only if
one-ways are ignored or the way is not tagged `oneway=yes`; (c) the
forward arc reaches the adjacency of the built graph at `u`; (d) when
the reverse condition holds, the reverse arc reaches the adjacency at
`v`. -/
theorem C6_buildGraph_pair_emissions (nodes : List (ℕ × OSMNode ℝ))
    (ways : List OSMWay) (ign : Bool) (w : OSMWay) (u v : ℕ)
    (nu nv : OSMNode ℝ) (hw : w ∈ ways)
    (hp : (u, v) ∈ consecPairs w.nodes)
    (hu : alistGet nodes u = some nu) (hv : alistGet nodes v = some nv) :
    ((revEdgeOf w u v nu nv).src = v ∧ (revEdgeOf w u v nu nv).dst = u ∧
      (revEdgeOf w u v nu nv).bearing =
        jsMod ((fwdEdgeOf w u v nu nv).bearing + 180) 360 ∧
      (revEdgeOf w u v nu nv).length = (fwdEdgeOf w u v nu nv).length ∧
      (revEdgeOf w u v nu nv).wayId = (fwdEdgeOf w u v nu nv).wayId ∧
      (revEdgeOf w u v nu nv).highway = (fwdEdgeOf w u v nu nv).highway ∧
      (revEdgeOf w u v nu nv).name = (fwdEdgeOf w u v nu nv).name) ∧
    (∀ st : BGState, buildPairStep nodes w ign st (u, v) =
      if ign = true ∨ ¬ tagGet w "oneway" = "yes" then
        ⟨alistPush (alistPush st.adjacency u
            ⟨v, st.edgeKey, fwdEdgeOf w u v nu nv⟩) v
            ⟨u, st.edgeKey + 1, revEdgeOf w u v nu nv⟩,
          alistSet (alistSet st.nodesAcc u nu) v nv, st.edgeKey + 2⟩
      else
        ⟨alistPush st.adjacency u ⟨v, st.edgeKey, fwdEdgeOf w u v nu nv⟩,
          alistSet (alistSet st.nodesAcc u nu) v nv, st.edgeKey + 1⟩) ∧
    (∃ k, (⟨v, k, fwdEdgeOf w u v nu nv⟩ : GraphEntry ℝ) ∈
      (alistGet (buildGraph nodes ways ign).adjacency u).getD []) ∧
    ((ign = true ∨ ¬ tagGet w "oneway" = "yes") →
      ∃ k, (⟨u, k, revEdgeOf w u v nu nv⟩ : GraphEntry ℝ) ∈
        (alistGet (buildGraph nodes ways ign).adjacency v).getD []) := by
  refine ⟨⟨rfl, rfl, rfl, rfl, rfl, rfl, rfl⟩, ?_, ?_, ?_⟩
  · intro st
    exact buildPairStep_characterisation nodes w ign u v nu nv hu hv st
  · exact foldl_ways_emits_fwd nodes ign w u v nu nv hu hv ways ⟨[], [], 0⟩
      hw hp
  · intro hc
    exact foldl_ways_emits_rev nodes ign w u v nu nv hu hv hc ways
      ⟨[], [], 0⟩ hw hp

/-- On the two-node demo network the built graph holds the forward arc
1→2 and the reverse arc 2→1. -/
theorem C6_witness :
    (∃ k, (⟨2, k, fwdEdgeOf ⟨10, [1, 2], [("highway", "residential")]⟩
        1 2 ⟨1, 0, 0⟩ ⟨2, 0, 90⟩⟩ : GraphEntry ℝ) ∈
      (alistGet (buildGraph demoNodes demoWays false).adjacency 1).getD []) ∧
    (∃ k, (⟨1, k, revEdgeOf ⟨10, [1, 2], [("highway", "residential")]⟩
        1 2 ⟨1, 0, 0⟩ ⟨2, 0, 90⟩⟩ : GraphEntry ℝ) ∈
      (alistGet (buildGraph demoNodes demoWays false).adjacency 2).getD []) := by
  have h := C6_buildGraph_pair_emissions demoNodes demoWays false
    ⟨10, [1, 2], [("highway", "residential")]⟩ 1 2 ⟨1, 0, 0⟩ ⟨2, 0, 90⟩
    (by simp [demoWays]) (by decide) rfl rfl
  exact ⟨h.2.2.1, h.2.2.2 (Or.inr (by decide))⟩

/-! ## Claim C8 — U-turn penalty monotonicity -/

/-- The claim's proviso, read statically off the graph: at every vertex
holding at least two outgoing arcs (a potential branch point), every
bearing on which the walk can arrive — the bearing of some arc entering
the vertex — admits at least one outgoing arc whose turn angle is not a
U-turn (normalized absolute angle at most 150°). -/
@[reducible] def branchPointsOfferNonUTurn {α : Type} [LinearOrderedField α]
    [FloorRing α] (G : Graph α) : Prop :=
  ∀ p ∈ G.adjacency, 2 ≤ p.2.length →
    ∀ q ∈ G.adjacency, ∀ e ∈ q.2, e.dst = p.1 →
      ∃ f ∈ p.2, |normalizeAngle (f.data.bearing - e.data.bearing)| ≤ 150

/-- An arc of the C8 counterexample network (unit length). -/
def c8Edge (s d : ℕ) (b : ℚ) : GraphEdge ℚ :=
  ⟨s, d, 1, b, 0, "residential", "unnamed"⟩

/-- A balanced four-vertex multigraph on which greedy selection is not
globally monotone in the U-turn penalty. -/
def c8Graph : Graph ℚ :=
  ⟨[(2, [⟨0, 0, c8Edge 2 0 150⟩, ⟨0, 5, c8Edge 2 0 120⟩,
         ⟨0, 6, c8Edge 2 0 45⟩]),
    (3, [⟨2, 1, c8Edge 3 2 285⟩]),
    (1, [⟨2, 2, c8Edge 1 2 330⟩]),
    (0, [⟨2, 3, c8Edge 0 2 240⟩, ⟨1, 4, c8Edge 0 1 45⟩,
         ⟨3, 7, c8Edge 0 3 300⟩])],
   [(0, ⟨0, 0, 0⟩), (1, ⟨1, 0, 0⟩), (2, ⟨2, 0, 0⟩), (3, ⟨3, 0, 0⟩)], 8⟩

/-- Low-U-turn-penalty configuration of the C8 counterexample. -/
def c8lo : TurnPenaltyConfig ℚ := ⟨0, 0, 300, 0⟩

/-- Same configuration with only the U-turn penalty raised. -/
def c8hi : TurnPenaltyConfig ℚ := ⟨0, 0, 300, 500⟩

/-- Raising only the U-turn penalty (0 → 500) on a network where every
branch point offers a non-U-turn alternative makes the reported U-turn
count rise from 0 to 1, although both runs produce genuine closed
Eulerian circuits consuming every arc exactly once. -/
theorem C8_counterexample_uturn_count_increases :
    branchPointsOfferNonUTurn c8Graph ∧
    c8hi.straight = c8lo.straight ∧ c8hi.rightTurn = c8lo.rightTurn ∧
    c8hi.leftTurn = c8lo.leftTurn ∧ c8lo.uTurn < c8hi.uTurn ∧
    (↑(walkPairs (hierholzerWithTurnPreference c8Graph 1 c8lo)) :
      Multiset (ℕ × ℕ)) = ↑(graphArcs c8Graph) ∧
    (↑(walkPairs (hierholzerWithTurnPreference c8Graph 1 c8hi)) :
      Multiset (ℕ × ℕ)) = ↑(graphArcs c8Graph) ∧
    (calculateRouteStats (hierholzerWithTurnPreference c8Graph 1 c8lo)
      c8Graph 0 0 1).uTurnCount = 0 ∧
    (calculateRouteStats (hierholzerWithTurnPreference c8Graph 1 c8hi)
      c8Graph 0 0 1).uTurnCount = 1 := by
  set_option maxRecDepth 1000000 in with_unfolding_all decide

theorem calculateTurnScore_non_uturn_congr {α : Type} [LinearOrderedField α]
    [FloorRing α] (ib ob : α) (p q : TurnPenaltyConfig α)
    (hs : q.straight = p.straight) (hr : q.rightTurn = p.rightTurn)
    (hl : q.leftTurn = p.leftTurn)
    (hnut : ¬ 150 < |normalizeAngle (ob - ib)|) :
    calculateTurnScore ib ob q = calculateTurnScore ib ob p := by
  simp only [calculateTurnScore]
  rw [if_neg hnut, if_neg hnut]
  by_cases h2 : |normalizeAngle (ob - ib)| ≤ 20
  · rw [if_pos h2, if_pos h2, hs]
  · rw [if_neg h2, if_neg h2]
    by_cases h3 : 0 < normalizeAngle (ob - ib)
    · rw [if_pos h3, if_pos h3, hr]
    · rw [if_neg h3, if_neg h3, hl]

theorem calculateTurnScore_mono_uturn {α : Type} [LinearOrderedField α]
    [FloorRing α] (ib ob : α) (p q : TurnPenaltyConfig α)
    (hs : q.straight = p.straight) (hr : q.rightTurn = p.rightTurn)
    (hl : q.leftTurn = p.leftTurn) (hu : p.uTurn ≤ q.uTurn) :
    calculateTurnScore ib ob p ≤ calculateTurnScore ib ob q := by
  by_cases h1 : 150 < |normalizeAngle (ob - ib)|
  · simp only [calculateTurnScore]
    rw [if_pos h1, if_pos h1]
    linarith
  · exact (calculateTurnScore_non_uturn_congr ib ob p q hs hr hl h1).ge

theorem firstMinBy_inv {α : Type} [LinearOrderedField α] {β : Type}
    (s t : β → α) :
    ∀ (es : List β) (b b' : β), (∀ e ∈ es, s e ≤ t e) →
      s b ≤ t b → s b' ≤ t b' → s b ≤ s b' → t b' ≤ t b →
      (t b = s b → b' = b) →
      s (firstMinBy s b es) ≤ t (firstMinBy s b es) ∧
      s (firstMinBy t b' es) ≤ t (firstMinBy t b' es) ∧
      s (firstMinBy s b es) ≤ s (firstMinBy t b' es) ∧
      t (firstMinBy t b' es) ≤ t (firstMinBy s b es) ∧
      (t (firstMinBy s b es) = s (firstMinBy s b es) →
        firstMinBy t b' es = firstMinBy s b es) := by
  intro es
  induction es with
  | nil =>
    intro b b' _ h1 h2 h3 h4 h5
    exact ⟨h1, h2, h3, h4, h5⟩
  | cons e rest ih =>
    intro b b' hle h1 h2 h3 h4 h5
    have hstep : firstMinBy s b (e :: rest) =
        firstMinBy s (if s e < s b then e else b) rest := rfl
    have hstep' : firstMinBy t b' (e :: rest) =
        firstMinBy t (if t e < t b' then e else b') rest := rfl
    rw [hstep, hstep']
    have hee : s e ≤ t e := hle e (List.mem_cons_self _ _)
    have hle' : ∀ x ∈ rest, s x ≤ t x :=
      fun x hx => hle x (List.mem_cons_of_mem _ hx)
    by_cases hA : s e < s b
    · by_cases hB : t e < t b'
      · rw [if_pos hA, if_pos hB]
        exact ih e e hle' hee hee le_rfl le_rfl (fun _ => rfl)
      · rw [if_pos hA, if_neg hB]
        push_neg at hB
        refine ih e b' hle' hee h2 (by linarith) hB ?_
        intro hte
        exfalso
        linarith
    · by_cases hB : t e < t b'
      · rw [if_neg hA, if_pos hB]
        push_neg at hA
        refine ih b e hle' h1 hee hA (by linarith) ?_
        intro htb
        exfalso
        linarith
      · rw [if_neg hA, if_neg hB]
        exact ih b b' hle' h1 h2 h3 h4 h5

theorem firstMinBy_congr_of_min_untouched {α : Type} [LinearOrderedField α]
    {β : Type} (s t : β → α) (e0 : β) (es : List β)
    (hle : ∀ e ∈ e0 :: es, s e ≤ t e)
    (hfix : t (firstMinBy s e0 es) = s (firstMinBy s e0 es)) :
    firstMinBy t e0 es = firstMinBy s e0 es := by
  have h0 : s e0 ≤ t e0 := hle e0 (List.mem_cons_self _ _)
  obtain ⟨-, -, -, -, h5⟩ := firstMinBy_inv s t es e0 e0
    (fun e he => hle e (List.mem_cons_of_mem _ he))
    h0 h0 le_rfl le_rfl (fun _ => rfl)
  exact h5 hfix

/-- C8: local monotonicity of the selector in the U-turn penalty — at
any choice point (known incoming bearing, the remaining arcs), if the
arc selected under penalties `p` is not a U-turn, then under any
penalties `q` that keep the straight, right-turn and left-turn
penalties and do not decrease the U-turn penalty, the selector picks
the identical arc, which in particular is still not a U-turn.  (The
global claim — that the U-turn count of the finished circuit never
increases — is refuted by `c8Graph`.) -/
theorem C8_selection_monotone_in_uturn_penalty {α : Type}
    [LinearOrderedField α] [FloorRing α] (ib : α)
    (p q : TurnPenaltyConfig α) (hs : q.straight = p.straight)
    (hr : q.rightTurn = p.rightTurn) (hl : q.leftTurn = p.leftTurn)
    (hu : p.uTurn ≤ q.uTurn) (e0 : GraphEntry α) (es : List (GraphEntry α))
    (hnut : ¬ 150 < |normalizeAngle
      ((hhSelect (some ib) p e0 es).data.bearing - ib)|) :
    hhSelect (some ib) q e0 es = hhSelect (some ib) p e0 es ∧
    ¬ 150 < |normalizeAngle
      ((hhSelect (some ib) q e0 es).data.bearing - ib)| := by
  cases es with
  | nil => exact ⟨rfl, hnut⟩
  | cons e1 rest =>
    have hsel :
        firstMinBy (fun e => calculateTurnScore ib e.data.bearing q) e0
            (e1 :: rest) =
          firstMinBy (fun e => calculateTurnScore ib e.data.bearing p) e0
            (e1 :: rest) := by
      refine firstMinBy_congr_of_min_untouched _ _ e0 (e1 :: rest) ?_ ?_
      · intro e _
        exact calculateTurnScore_mono_uturn ib e.data.bearing p q hs hr hl hu
      · exact calculateTurnScore_non_uturn_congr ib _ p q hs hr hl hnut
    refine ⟨hsel, ?_⟩
    show ¬ 150 < |normalizeAngle
      ((firstMinBy (fun e => calculateTurnScore ib e.data.bearing q) e0
        (e1 :: rest)).data.bearing - ib)|
    rw [hsel]
    exact hnut

/-- At incoming bearing 0 with a straight arc and a U-turn arc on
offer, raising the U-turn penalty from 0 to 1 keeps the selection (the
straight arc) unchanged and non-U-turn. -/
theorem C8_witness :
    hhSelect (some (0 : ℚ)) ⟨0, 0, 300, 1⟩
        ⟨1, 0, ⟨0, 1, 1, 10, 0, "residential", "unnamed"⟩⟩
        [⟨2, 1, ⟨0, 2, 1, 180, 0, "residential", "unnamed"⟩⟩] =
      hhSelect (some (0 : ℚ)) ⟨0, 0, 300, 0⟩
        ⟨1, 0, ⟨0, 1, 1, 10, 0, "residential", "unnamed"⟩⟩
        [⟨2, 1, ⟨0, 2, 1, 180, 0, "residential", "unnamed"⟩⟩] ∧
    ¬ 150 < |normalizeAngle ((hhSelect (some (0 : ℚ)) ⟨0, 0, 300, 1⟩
        ⟨1, 0, ⟨0, 1, 1, 10, 0, "residential", "unnamed"⟩⟩
        [⟨2, 1, ⟨0, 2, 1, 180, 0, "residential", "unnamed"⟩⟩]).data.bearing
      - 0)| :=
  C8_selection_monotone_in_uturn_penalty 0 ⟨0, 0, 300, 0⟩ ⟨0, 0, 300, 1⟩
    rfl rfl rfl (by norm_num)
    ⟨1, 0, ⟨0, 1, 1, 10, 0, "residential", "unnamed"⟩⟩
    [⟨2, 1, ⟨0, 2, 1, 180, 0, "residential", "unnamed"⟩⟩]
    (by set_option maxRecDepth 1000000 in with_unfolding_all decide)
